import Mathlib

/-! OPL output of libosmium: the two encoders.

Shallow embedding of

* `src/include/osmium/io/opl_output.hpp` (class `OPLOutput`, the direct, buffered writer) and
* `src/include/osmium/io/detail/opl_output_format.hpp` (classes `OPLOutputBlock` and
  `OPLOutputFormat`, the block encoder and its pipeline).

A `std::string` is a list of bytes.  A text field of an OSM object (user name, tag key, tag
value, member role) is UTF-8 text and is kept as the sequence of its Unicode scalar values; its
bytes are `c_str`.  Every member function that appends to `m_out` becomes a function that takes
the old `m_out` and returns the new one.
-/

namespace osmium

/-- One `char` of a `std::string`, by its value as an unsigned byte. -/
abbrev Byte := Fin 256

/-- UTF-8 text as the sequence of its Unicode scalar values. -/
abbrev Text := List Char

/-- The byte of a character constant such as `'n'` or `'%'`. -/
def ch (c : Char) : Byte := Fin.ofNat c.toNat

/-- UTF-8 encoding of one Unicode scalar value. -/
def utf8_bytes (c : Char) : List Byte :=
  let v := c.toNat
  if v < 0x80 then [Fin.ofNat v]
  else if v < 0x800 then [Fin.ofNat (0xC0 + v / 64), Fin.ofNat (0x80 + v % 64)]
  else if v < 0x10000 then
    [Fin.ofNat (0xE0 + v / 4096), Fin.ofNat (0x80 + v / 64 % 64), Fin.ofNat (0x80 + v % 64)]
  else
    [Fin.ofNat (0xF0 + v / 262144), Fin.ofNat (0x80 + v / 4096 % 64),
     Fin.ofNat (0x80 + v / 64 % 64), Fin.ofNat (0x80 + v % 64)]

/-- The bytes of a UTF-8 text. -/
def c_str (t : Text) : List Byte := t.flatMap utf8_bytes

/-- The bytes of a string literal of the source. -/
def lit (s : String) : List Byte := c_str s.data

/-! ## printf conversions -/

/-- Decimal digits of a natural number. -/
def dec (n : Nat) : List Byte := (Nat.toDigits 10 n).map ch

/-- The conversions `%d` and `%" PRId64 "`: decimal, with a minus sign for negative values. -/
def fmt_d (i : Int) : List Byte :=
  if i < 0 then ch '-' :: dec i.natAbs else dec i.toNat

/-- The conversion `%04x`: lowercase hexadecimal, padded with zeros to at least 4 digits. -/
def fmt_04x (c : Nat) : List Byte :=
  let ds := Nat.toDigits 16 c
  (List.replicate (4 - ds.length) '0' ++ ds).map ch

/-- What `snprintf(m_tmp_buffer, tmp_buffer_size, ...)` leaves in the temporary buffer when the
complete formatted text is `formatted`: at most `size - 1` bytes (then the terminating zero). -/
def snprintf (size : Nat) (formatted : List Byte) : List Byte := formatted.take (size - 1)

/-- The function `isalnum` of the C locale. -/
def isalnum (c : Byte) : Bool :=
  (ch '0' ≤ c && c ≤ ch '9') || (ch 'A' ≤ c && c ≤ ch 'Z') || (ch 'a' ≤ c && c ≤ ch 'z')

/-- Range of a signed 32-bit integer (`int`, the argument of `%d`). -/
def int32 (i : Int) : Prop := -2147483648 ≤ i ∧ i ≤ 2147483647

/-- Range of a signed 64-bit integer (`int64_t`, the argument of `PRId64`). -/
def int64 (i : Int) : Prop := -9223372036854775808 ≤ i ∧ i ≤ 9223372036854775807

instance (i : Int) : Decidable (int32 i) := by unfold int32; infer_instance

instance (i : Int) : Decidable (int64 i) := by unfold int64; infer_instance

/-- Decimal digits of `n`, padded with zeros on the left to at least `w` digits. -/
def dec_pad (w n : Nat) : List Byte :=
  let ds := Nat.toDigits 10 n
  (List.replicate (w - ds.length) '0' ++ ds).map ch

/-- The conversion `%.7f` applied to a coordinate.  The argument is the coordinate in units of
`10^-7` degrees; the `double` handed to `printf` is that integer divided by `10^7`, which `%.7f`
prints back exactly: sign, integer part, a point, and 7 digits. -/
def fmt_7f (v : Int) : List Byte :=
  (if v < 0 then [ch '-'] else []) ++ dec (v.natAbs / 10000000) ++ [ch '.'] ++
    dec_pad 7 (v.natAbs % 10000000)

/-! ## The data model -/

/-- Modelled from the spec: `osmium::Tag` (`osmium/osm/tag.hpp` is not among the sources), a
key/value pair of UTF-8 text. -/
structure Tag where
  key : Text
  value : Text
  deriving DecidableEq

/-- Modelled from the spec: `osmium::Location` (`osmium/osm/location.hpp` is not among the
sources), a coordinate pair.  As in libosmium the two coordinates are kept as integers in units of
`10^-7` degrees (32-bit), `x` the longitude and `y` the latitude.  A location that is not set is
`none` in the records below. -/
structure Location where
  x : Int
  y : Int
  deriving DecidableEq

/-- Both coordinates of a location fit their 32-bit storage. -/
def Location.in_range (l : Location) : Prop := int32 l.x ∧ int32 l.y

/-- Modelled from the spec: `osmium::item_type` restricted to the three kinds a relation member
can have (`osmium/osm/item_type.hpp` is not among the sources). -/
inductive item_type where
  | node
  | way
  | relation
  deriving DecidableEq

/-- Modelled from the spec: `item_type_to_char`, whose result is one of `n`, `w`, `r`
(`osmium/osm/item_type.hpp` is not among the sources). -/
def item_type_to_char : item_type → Char
  | .node => 'n'
  | .way => 'w'
  | .relation => 'r'

/-- One member of a relation: `member.type()`, `member.ref()`, `member.role()`. -/
structure RelationMember where
  type : item_type
  ref : Int
  role : Text
  deriving DecidableEq

/-- The fields `write_meta` reads from an `osmium::OSMObject`.  Numbers are the values handed to
`printf`; `timestamp` is seconds since the epoch. -/
structure OSMObject where
  id : Int
  version : Int
  visible : Bool
  changeset : Int
  timestamp : Nat
  uid : Int
  user : Text
  tags : List Tag
  deriving DecidableEq

/-- An `osmium::Node`: an object with an optional location. -/
structure Node extends OSMObject where
  location : Option Location
  deriving DecidableEq

/-- An `osmium::Way`: an object with its node references, `way.nodes()`. -/
structure Way extends OSMObject where
  nodes : List Int
  deriving DecidableEq

/-- An `osmium::Relation`: an object with its members, `relation.members()`. -/
structure Relation extends OSMObject where
  members : List RelationMember
  deriving DecidableEq

/-- An `osmium::Changeset`, with the two corners of `bounds()`. -/
structure Changeset where
  id : Int
  num_changes : Int
  created_at : Nat
  closed_at : Nat
  uid : Int
  user : Text
  bottom_left : Option Location
  top_right : Option Location
  tags : List Tag
  deriving DecidableEq

/-- One item of an `osmium::memory::Buffer`, as `osmium::apply` dispatches it to a handler. -/
inductive Entity where
  | node (n : Node)
  | way (w : Way)
  | relation (r : Relation)
  | changeset (c : Changeset)
  deriving DecidableEq

/-- The numbers of an object fit the machine types `printf` reads them at. -/
def OSMObject.in_range (o : OSMObject) : Prop :=
  int64 o.id ∧ int32 o.version ∧ int32 o.changeset ∧ int32 o.uid

instance (l : Location) : Decidable l.in_range := by unfold Location.in_range; infer_instance

instance (o : OSMObject) : Decidable o.in_range := by unfold OSMObject.in_range; infer_instance

/-! ## Timestamps -/

/-- Modelled from the spec: `Timestamp::to_iso` and `timestamp::to_iso` (`osmium/osm/timestamp.hpp`
and `osmium/utils/timestamp.hpp` are not among the sources): seconds since the epoch rendered as
the calendar-ISO text `YYYY-MM-DDThh:mm:ssZ` of the UTC time. -/
def to_iso (t : Nat) : List Byte :=
  let sod := t % 86400
  let z := t / 86400 + 719468
  let era := z / 146097
  let doe := z % 146097
  let yoe := (doe - doe / 1460 + doe / 36524 - doe / 146096) / 365
  let doy := doe - (365 * yoe + yoe / 4 - yoe / 100)
  let mp := (5 * doy + 2) / 153
  let d := doy - (153 * mp + 2) / 5 + 1
  let m := if mp < 10 then mp + 3 else mp - 9
  let y := if m ≤ 2 then yoe + era * 400 + 1 else yoe + era * 400
  dec_pad 4 y ++ [ch '-'] ++ dec_pad 2 m ++ [ch '-'] ++ dec_pad 2 d ++ [ch 'T'] ++
    dec_pad 2 (sod / 3600) ++ [ch ':'] ++ dec_pad 2 (sod / 60 % 60) ++ [ch ':'] ++
    dec_pad 2 (sod % 60) ++ [ch 'Z']

/-! ## Loops that join with commas -/

/-- The loop shape `bool first = true; for (x : xs) { if (first) first = false; else m_out += ',';
body }` that both encoders use for tags, way nodes and relation members. -/
def loop_first {α : Type} (body : List Byte → α → List Byte) (m_out : List Byte) (first : Bool) :
    List α → List Byte
  | [] => m_out
  | x :: xs => loop_first body (body (if first then m_out else m_out ++ [ch ',']) x) false xs

/-! ## The block encoder, `OPLOutputBlock` -/

namespace OPLOutputBlock

/-- Source constant `static constexpr size_t tmp_buffer_size = 100;` -/
def tmp_buffer_size : Nat := 100

/-- Source function `OPLOutputBlock::output_formatted`: `snprintf` into the temporary buffer,
then `m_out += m_tmp_buffer`.  `formatted` is the complete text the format and arguments give; the
`assert` on its length does not change what is appended. -/
def output_formatted (m_out formatted : List Byte) : List Byte :=
  m_out ++ snprintf tmp_buffer_size formatted

/-- Source function `OPLOutputBlock::append_encoded_string`: the loop over the code points of
`data`, which `u8_to_u32_iterator` decodes and `utf8_output_iterator` encodes again. -/
def append_encoded_string (m_out : List Byte) : Text → List Byte
  | [] => m_out
  | c :: data =>
    if (0x0021 ≤ c.toNat && c.toNat ≤ 0x0024) ||
       (0x0026 ≤ c.toNat && c.toNat ≤ 0x002b) ||
       (0x002d ≤ c.toNat && c.toNat ≤ 0x003c) ||
       (0x003e ≤ c.toNat && c.toNat ≤ 0x003f) ||
       (0x0041 ≤ c.toNat && c.toNat ≤ 0x007e) ||
       (0x00a1 ≤ c.toNat && c.toNat ≤ 0x00ac) ||
       (0x00ae ≤ c.toNat && c.toNat ≤ 0x05ff) then
      append_encoded_string (m_out ++ utf8_bytes c) data
    else
      append_encoded_string (output_formatted (m_out ++ [ch '%']) (fmt_04x c.toNat)) data

/-- Body of the tag loop of `write_meta` and `changeset`. -/
def tag_body (m_out : List Byte) (tag : Tag) : List Byte :=
  append_encoded_string (append_encoded_string m_out tag.key ++ [ch '=']) tag.value

/-- Source function `OPLOutputBlock::write_meta`. -/
def write_meta (m_out : List Byte) (object : OSMObject) : List Byte :=
  let m_out := output_formatted m_out
    (fmt_d object.id ++ lit " v" ++ fmt_d object.version ++ lit " d")
  let m_out := m_out ++ [if object.visible then ch 'V' else ch 'D']
  let m_out := output_formatted m_out (lit " c" ++ fmt_d object.changeset ++ lit " t")
  let m_out := m_out ++ to_iso object.timestamp
  let m_out := output_formatted m_out (lit " i" ++ fmt_d object.uid ++ lit " u")
  let m_out := append_encoded_string m_out object.user
  let m_out := m_out ++ lit " T"
  loop_first tag_body m_out true object.tags

/-- Source function `OPLOutputBlock::write_location`. -/
def write_location (m_out : List Byte) (location : Option Location) (x y : Char) : List Byte :=
  match location with
  | some l =>
    output_formatted m_out
      (lit " " ++ [ch x] ++ fmt_7f l.x ++ lit " " ++ [ch y] ++ fmt_7f l.y)
  | none => m_out ++ [ch ' '] ++ [ch x] ++ [ch ' '] ++ [ch y]

/-- Source function `OPLOutputBlock::node`. -/
def node (m_out : List Byte) (node : Node) : List Byte :=
  let m_out := m_out ++ [ch 'n']
  let m_out := write_meta m_out node.toOSMObject
  let m_out := write_location m_out node.location 'x' 'y'
  m_out ++ [ch '\n']

/-- Source function `OPLOutputBlock::way`. -/
def way (m_out : List Byte) (way : Way) : List Byte :=
  let m_out := m_out ++ [ch 'w']
  let m_out := write_meta m_out way.toOSMObject
  let m_out := m_out ++ lit " N"
  let m_out := loop_first (fun m_out ref => output_formatted m_out (lit "n" ++ fmt_d ref))
    m_out true way.nodes
  m_out ++ [ch '\n']

/-- Source function `OPLOutputBlock::relation`. -/
def relation (m_out : List Byte) (relation : Relation) : List Byte :=
  let m_out := m_out ++ [ch 'r']
  let m_out := write_meta m_out relation.toOSMObject
  let m_out := m_out ++ lit " M"
  let m_out := loop_first
    (fun m_out (member : RelationMember) =>
      output_formatted (m_out ++ [ch (item_type_to_char member.type)])
        (fmt_d member.ref ++ lit "@") ++ c_str member.role)
    m_out true relation.members
  m_out ++ [ch '\n']

/-- Source function `OPLOutputBlock::changeset`. -/
def changeset (m_out : List Byte) (changeset : Changeset) : List Byte :=
  let m_out := output_formatted m_out
    (lit "c" ++ fmt_d changeset.id ++ lit " k" ++ fmt_d changeset.num_changes ++ lit " s")
  let m_out := m_out ++ to_iso changeset.created_at
  let m_out := m_out ++ lit " e"
  let m_out := m_out ++ to_iso changeset.closed_at
  let m_out := output_formatted m_out (lit " i" ++ fmt_d changeset.uid ++ lit " u")
  let m_out := append_encoded_string m_out changeset.user
  let m_out := write_location m_out changeset.bottom_left 'x' 'y'
  let m_out := write_location m_out changeset.top_right 'X' 'Y'
  let m_out := m_out ++ lit " T"
  let m_out := loop_first tag_body m_out true changeset.tags
  m_out ++ [ch '\n']

/-- The call `osmium::apply(m_input_buffer.cbegin(), m_input_buffer.cend(), *this)`: every item
of the buffer, in order, goes to the callback of its kind. -/
def apply (m_out : List Byte) : List Entity → List Byte
  | [] => m_out
  | .node n :: rest => apply (node m_out n) rest
  | .way w :: rest => apply (way m_out w) rest
  | .relation r :: rest => apply (relation m_out r) rest
  | .changeset c :: rest => apply (changeset m_out c) rest

/-- Source function `OPLOutputBlock::operator()`: the returned string and the `m_out` left
behind by the swap with the fresh local `out`. -/
def call (m_input_buffer : List Entity) (m_out : List Byte) : List Byte × List Byte :=
  (apply m_out m_input_buffer, [])

end OPLOutputBlock

/-! ## The direct writer, `OPLOutput` -/

namespace OPLOutput

/-- Source constant `static const size_t output_buffer_size = 1024*1024;` -/
def output_buffer_size : Nat := 1024 * 1024

/-- Source constant `static const size_t tmp_buffer_size = 100;` -/
def tmp_buffer_size : Nat := 100

/-- Source constant `static constexpr char hex[] = "0123456789abcdef";` -/
def hex : List Byte := lit "0123456789abcdef"

/-- Source function `OPLOutput::append_encoded_string`: the loop `for (char c : data)`. -/
def append_encoded_string (m_out : List Byte) : List Byte → List Byte
  | [] => m_out
  | c :: data =>
    if isalnum c || c == ch '-' || c == ch '_' || c == ch '.' || c == ch ':' || c == ch ';' then
      append_encoded_string (m_out ++ [c]) data
    else
      append_encoded_string
        (m_out ++ [ch '%'] ++ [hex.getD ((c.val &&& 0xf0) >>> 4) 0] ++ [hex.getD (c.val &&& 0x0f) 0])
        data

/-- Source function `OPLOutput::write_meta`. -/
def write_meta (m_out : List Byte) (object : OSMObject) : List Byte :=
  let m_out := m_out ++ snprintf tmp_buffer_size
    (fmt_d object.id ++ lit " v" ++ fmt_d object.version ++ lit " d")
  let m_out := m_out ++ [if object.visible then ch 'V' else ch 'D']
  let m_out := m_out ++ snprintf tmp_buffer_size (lit " c" ++ fmt_d object.changeset ++ lit " t")
  let m_out := m_out ++ to_iso object.timestamp
  let m_out := m_out ++ snprintf tmp_buffer_size (lit " i" ++ fmt_d object.uid ++ lit " u")
  append_encoded_string m_out (c_str object.user)

/-- Body of the tag loop of `write_tags`. -/
def tag_body (m_out : List Byte) (tag : Tag) : List Byte :=
  append_encoded_string (append_encoded_string m_out (c_str tag.key) ++ [ch '=']) (c_str tag.value)

/-- Source function `OPLOutput::write_tags`. -/
def write_tags (m_out : List Byte) (tags : List Tag) : List Byte :=
  let m_out := m_out ++ lit " T"
  let m_out := loop_first tag_body m_out true tags
  m_out ++ [ch '\n']

/-- The state of an `OPLOutput`: the accumulator `m_out` and the bytes written so far to the
file descriptor `fd()`. -/
structure State where
  m_out : List Byte
  fd : List Byte
  deriving DecidableEq

/-- Source function `OPLOutput::flush`.  The helper `reliable_write`
(`osmium/io/detail/read_write.hpp`, not among the sources) is modelled from the spec: a retrying
write that loops until every byte of the accumulator has reached the sink.  Then the accumulator
is cleared. -/
def flush (s : State) : State :=
  { m_out := [], fd := s.fd ++ s.m_out }

/-- The end of `node`, `way` and `relation`: `if (m_out.size() > output_buffer_size) flush();` -/
def flush_if_full (s : State) : State :=
  if s.m_out.length > output_buffer_size then flush s else s

/-- What `OPLOutput::node` appends to `m_out`. -/
def node_text (m_out : List Byte) (node : Node) : List Byte :=
  let m_out := m_out ++ [ch 'n']
  let m_out := write_meta m_out node.toOSMObject
  let m_out :=
    match node.location with
    | some l =>
      m_out ++ snprintf tmp_buffer_size (lit " x" ++ fmt_7f l.x ++ lit " y" ++ fmt_7f l.y)
    | none => m_out ++ lit " x y"
  write_tags m_out node.tags

/-- What `OPLOutput::way` appends to `m_out`. -/
def way_text (m_out : List Byte) (way : Way) : List Byte :=
  let m_out := m_out ++ [ch 'w']
  let m_out := write_meta m_out way.toOSMObject
  let m_out := m_out ++ lit " N"
  let m_out := loop_first
    (fun m_out wn => m_out ++ snprintf tmp_buffer_size (lit "n" ++ fmt_d wn)) m_out true way.nodes
  write_tags m_out way.tags

/-- What `OPLOutput::relation` appends to `m_out`. -/
def relation_text (m_out : List Byte) (relation : Relation) : List Byte :=
  let m_out := m_out ++ [ch 'r']
  let m_out := write_meta m_out relation.toOSMObject
  let m_out := m_out ++ lit " M"
  let m_out := loop_first
    (fun m_out (member : RelationMember) =>
      m_out ++ [ch (item_type_to_char member.type)] ++
        snprintf tmp_buffer_size (fmt_d member.ref ++ lit "@") ++ c_str member.role)
    m_out true relation.members
  write_tags m_out relation.tags

/-- Source function `OPLOutput::node`. -/
def node (s : State) (n : Node) : State :=
  flush_if_full { s with m_out := node_text s.m_out n }

/-- Source function `OPLOutput::way`. -/
def way (s : State) (w : Way) : State :=
  flush_if_full { s with m_out := way_text s.m_out w }

/-- Source function `OPLOutput::relation`. -/
def relation (s : State) (r : Relation) : State :=
  flush_if_full { s with m_out := relation_text s.m_out r }

/-- Source function `OPLOutput::close`. -/
def close (s : State) : State := flush s

/-- Source function `OPLOutput::handle_collection`: every item goes to the callback of its
kind.  `OPLOutput` defines no `changeset` callback, the handler's default one does nothing. -/
def handle_collection (s : State) : List Entity → State
  | [] => s
  | .node n :: rest => handle_collection (node s n) rest
  | .way w :: rest => handle_collection (way s w) rest
  | .relation r :: rest => handle_collection (relation s r) rest
  | .changeset _ :: rest => handle_collection s rest

/-- A freshly constructed `OPLOutput`: empty accumulator, nothing written. -/
def init : State := { m_out := [], fd := [] }

end OPLOutput

/-! ## Reference renderings, written from the specification -/

/-- Specification side: lowercase hexadecimal digit of a value below 16. -/
def spec_hex_digit (n : Nat) : Byte :=
  if n < 10 then Fin.ofNat (48 + n) else Fin.ofNat (97 + (n - 10))

/-- Specification side: the bytes the byte-oriented scheme emits verbatim, ASCII letters,
ASCII digits and `- _ . : ;`. -/
def spec_byte_verbatim (b : Byte) : Bool :=
  (65 ≤ b.val && b.val ≤ 90) || (97 ≤ b.val && b.val ≤ 122) || (48 ≤ b.val && b.val ≤ 57) ||
    b.val == 45 || b.val == 95 || b.val == 46 || b.val == 58 || b.val == 59

/-- Specification side: rendering of one byte by the byte-oriented scheme. -/
def spec_byte_escape (b : Byte) : List Byte :=
  if spec_byte_verbatim b then [b]
  else [37, spec_hex_digit (b.val / 16), spec_hex_digit (b.val % 16)]

/-- Specification side: value of a hexadecimal digit, if the byte is one. -/
def spec_hex_value (b : Byte) : Option Nat :=
  if 48 ≤ b.val ∧ b.val ≤ 57 then some (b.val - 48)
  else if 97 ≤ b.val ∧ b.val ≤ 102 then some (b.val - 87)
  else if 65 ≤ b.val ∧ b.val ≤ 70 then some (b.val - 55)
  else none

/-- Specification side: percent-decoding of the byte-oriented scheme.  A `%` followed by two
hexadecimal digits is read as one byte, every other byte is taken verbatim. -/
def spec_byte_unescape : List Byte → List Byte
  | [] => []
  | [b] => [b]
  | [b, c] => [b, c]
  | b :: h :: l :: rest =>
    match b.val == 37, spec_hex_value h, spec_hex_value l with
    | true, some hv, some lv => Fin.ofNat (hv * 16 + lv) :: spec_byte_unescape rest
    | _, _, _ => b :: spec_byte_unescape (h :: l :: rest)

/-- Specification side: the allow-list of the scalar-value scheme, as ranges of code points. -/
def spec_allow_list : List (Nat × Nat) :=
  [(0x21, 0x24), (0x26, 0x2b), (0x2d, 0x3c), (0x3e, 0x3f), (0x41, 0x7e), (0xa1, 0xac),
   (0xae, 0x5ff)]

/-- Specification side: membership of a code point in the allow-list. -/
def spec_allowed (c : Nat) : Bool := spec_allow_list.any (fun r => r.1 ≤ c && c ≤ r.2)

/-- Specification side: the escape `%XXXX` of a code point, a percent sign and exactly 4 lowercase
hexadecimal digits, most significant first. -/
def spec_percent_4 (c : Nat) : List Byte :=
  [37, spec_hex_digit (c / 4096 % 16), spec_hex_digit (c / 256 % 16),
   spec_hex_digit (c / 16 % 16), spec_hex_digit (c % 16)]

/-- Specification side: what the claim on scalar-value escaping asks of the output `out` for the
scalar value `c`: verbatim UTF-8 when allow-listed, otherwise `%` and exactly 4 lowercase
hexadecimal digits whose value is `c`. -/
def spec_scalar_escaped (c : Char) (out : List Byte) : Prop :=
  if spec_allowed c.toNat then out = utf8_bytes c
  else ∃ d3 d2 d1 d0 : Nat, d3 < 16 ∧ d2 < 16 ∧ d1 < 16 ∧ d0 < 16 ∧
    out = [37, spec_hex_digit d3, spec_hex_digit d2, spec_hex_digit d1, spec_hex_digit d0] ∧
    4096 * d3 + 256 * d2 + 16 * d1 + d0 = c.toNat

/-- The escaped form the block encoder gives a text. -/
def block_esc (t : Text) : List Byte := OPLOutputBlock.append_encoded_string [] t

/-- The escaped form the direct writer gives a text. -/
def direct_esc (t : Text) : List Byte := OPLOutput.append_encoded_string [] (c_str t)

/-- Specification side: the meta prefix after the type letter,
`<id> v<version> d<V|D> c<changeset> t<timestamp> i<uid> u<user>`. -/
def spec_meta (esc : Text → List Byte) (o : OSMObject) : List Byte :=
  fmt_d o.id ++ lit " v" ++ fmt_d o.version ++ lit " d" ++
    [if o.visible then ch 'V' else ch 'D'] ++ lit " c" ++ fmt_d o.changeset ++ lit " t" ++
    to_iso o.timestamp ++ lit " i" ++ fmt_d o.uid ++ lit " u" ++ esc o.user

/-- Specification side: the tags `k1=v1,...,kn=vn` joined by single commas. -/
def spec_tag_list (esc : Text → List Byte) (tags : List Tag) : List Byte :=
  List.intercalate [ch ','] (tags.map (fun t => esc t.key ++ [ch '='] ++ esc t.value))

/-- Specification side: the tag section, `T` followed by the joined tags. -/
def spec_tag_section (esc : Text → List Byte) (tags : List Tag) : List Byte :=
  ch 'T' :: spec_tag_list esc tags

/-- Specification side: the position fields of a Point, `x<lon> y<lat>`, or the bare markers. -/
def spec_xy (location : Option Location) : List Byte :=
  match location with
  | some l => ch 'x' :: fmt_7f l.x ++ lit " y" ++ fmt_7f l.y
  | none => lit "x y"

/-- Specification side: the node section of a Way, `N` and the references `n<ref>` joined by
commas. -/
def spec_node_section (refs : List Int) : List Byte :=
  ch 'N' :: List.intercalate [ch ','] (refs.map (fun r => ch 'n' :: fmt_d r))

/-- Specification side: one member, `<type_char><ref>@<role>`. -/
def spec_member (m : RelationMember) : List Byte :=
  ch (item_type_to_char m.type) :: fmt_d m.ref ++ [ch '@'] ++ c_str m.role

/-- Specification side: the member section of a Relation, `M` and the members joined by
commas. -/
def spec_member_section (members : List RelationMember) : List Byte :=
  ch 'M' :: List.intercalate [ch ','] (members.map spec_member)

/-- Specification side: the variant section of a Point, Way or Relation. -/
def spec_variant : Entity → List Byte
  | .node n => spec_xy n.location
  | .way w => spec_node_section w.nodes
  | .relation r => spec_member_section r.members
  | .changeset _ => []

/-- The type letter of a record. -/
def type_letter : Entity → Byte
  | .node _ => ch 'n'
  | .way _ => ch 'w'
  | .relation _ => ch 'r'
  | .changeset _ => ch 'c'

/-- The common object part of a Point, Way or Relation. -/
def Entity.object : Entity → Option OSMObject
  | .node n => some n.toOSMObject
  | .way w => some w.toOSMObject
  | .relation r => some r.toOSMObject
  | .changeset _ => none

/-- Every number of the record fits the machine type `printf` reads it at. -/
def Entity.in_range : Entity → Prop
  | .node n => n.toOSMObject.in_range ∧ ∀ l ∈ n.location, l.in_range
  | .way w => w.toOSMObject.in_range ∧ ∀ r ∈ w.nodes, int64 r
  | .relation r => r.toOSMObject.in_range ∧ ∀ m ∈ r.members, int64 m.ref
  | .changeset c => int32 c.id ∧ int32 c.num_changes ∧ int32 c.uid ∧
      (∀ l ∈ c.bottom_left, l.in_range) ∧ (∀ l ∈ c.top_right, l.in_range)

/-- Specification side: the line of a Point, Way or Relation with the tag section last,
`<letter><meta> <variant> T<tags>` and a newline. -/
def spec_line_tags_last (esc : Text → List Byte) (e : Entity) (o : OSMObject) : List Byte :=
  [type_letter e] ++ spec_meta esc o ++ [ch ' '] ++ spec_variant e ++ [ch ' '] ++
    spec_tag_section esc o.tags ++ [ch '\n']

/-- The line of a Point, Way or Relation with the tag section before the variant section,
`<letter><meta> T<tags> <variant>` and a newline. -/
def line_tags_first (esc : Text → List Byte) (e : Entity) (o : OSMObject) : List Byte :=
  [type_letter e] ++ spec_meta esc o ++ [ch ' '] ++ spec_tag_section esc o.tags ++ [ch ' '] ++
    spec_variant e ++ [ch '\n']

/-- Specification side: the line of a record of a sequence, tag section last (nothing for a
record that is not a Point, Way or Relation). -/
def spec_line_of (esc : Text → List Byte) (e : Entity) : List Byte :=
  match e.object with
  | some o => spec_line_tags_last esc e o
  | none => []

/-- The line of a record of a sequence, tag section before the variant section (nothing for a
record that is not a Point, Way or Relation). -/
def line_tags_first_of (esc : Text → List Byte) (e : Entity) : List Byte :=
  match e.object with
  | some o => line_tags_first esc e o
  | none => []

/-- The characters both escaping schemes emit verbatim: ASCII letters, digits and `- _ . : ;`. -/
def safe_char (c : Char) : Bool :=
  ('a'.toNat ≤ c.toNat && c.toNat ≤ 'z'.toNat) || ('A'.toNat ≤ c.toNat && c.toNat ≤ 'Z'.toNat) ||
    ('0'.toNat ≤ c.toNat && c.toNat ≤ '9'.toNat) ||
    c == '-' || c == '_' || c == '.' || c == ':' || c == ';'

/-- A text of safe characters only. -/
def safe_text (t : Text) : Prop := ∀ c ∈ t, safe_char c = true

/-- User name, tag keys and tag values of an object are safe texts. -/
def OSMObject.safe (o : OSMObject) : Prop :=
  safe_text o.user ∧ ∀ t ∈ o.tags, safe_text t.key ∧ safe_text t.value

instance (t : Text) : Decidable (safe_text t) := by unfold safe_text; infer_instance

instance (o : OSMObject) : Decidable o.safe := by unfold OSMObject.safe; infer_instance

instance (e : Entity) : Decidable e.in_range := by
  cases e <;> (unfold Entity.in_range; infer_instance)

/-! ## Sample records -/

/-- The object part of the sample records: id 1, version 1, visible, changeset 1, timestamp
2014-01-01T00:00:00Z, uid 1, user `u`, one tag `a=1`. -/
def sample_object : OSMObject :=
  { id := 1, version := 1, visible := true, changeset := 1, timestamp := 1388534400, uid := 1,
    user := "u".data, tags := [{ key := "a".data, value := "1".data }] }

/-- The Point of the concrete scenario: the sample object at longitude 1.0, latitude 2.0. -/
def sample_point : Node :=
  { toOSMObject := sample_object, location := some { x := 10000000, y := 20000000 } }

/-- A closed Way over the sample object. -/
def sample_way : Way :=
  { toOSMObject := sample_object, nodes := [10, 11, -12, 10] }

/-- A Relation over the sample object. -/
def sample_relation : Relation :=
  { toOSMObject := sample_object,
    members := [{ type := .node, ref := 10, role := "stop".data },
                { type := .way, ref := 20, role := [] },
                { type := .relation, ref := 30, role := "x".data }] }

/-- A Relation whose only member has the one-character role U+000A (line feed). -/
def sample_relation_newline_role : Relation :=
  { toOSMObject := sample_object, members := [{ type := .node, ref := 10, role := ['\n'] }] }

/-- A Changeset with one corner of its bounds set and the other absent. -/
def sample_changeset : Changeset :=
  { id := 7, num_changes := 3, created_at := 1388534400, closed_at := 1388538000, uid := 1,
    user := "u".data, bottom_left := some { x := -5, y := 20000000 }, top_right := none,
    tags := [{ key := "a".data, value := "1".data }] }

/-! ## Lines of single records -/

/-- The line the block encoder gives one record: the callback of its kind on an empty `m_out`. -/
def block_line : Entity → List Byte
  | .node n => OPLOutputBlock.node [] n
  | .way w => OPLOutputBlock.way [] w
  | .relation r => OPLOutputBlock.relation [] r
  | .changeset c => OPLOutputBlock.changeset [] c

/-- The line the direct writer gives one record: what the callback of its kind appends to an
empty accumulator (nothing for a Changeset, which has no callback). -/
def direct_line : Entity → List Byte
  | .node n => OPLOutput.node_text [] n
  | .way w => OPLOutput.way_text [] w
  | .relation r => OPLOutput.relation_text [] r
  | .changeset _ => []

/-- Specification side: an ASCII decimal digit. -/
def spec_is_digit (b : Byte) : Bool := 48 ≤ b.val && b.val ≤ 57

/-- Specification side: `out` is a decimal number with exactly 7 digits after the decimal point,
an optional minus sign and at least one digit before the point. -/
def spec_seven_decimals (out : List Byte) : Prop :=
  ∃ sign ip fr : List Byte, out = sign ++ ip ++ [ch '.'] ++ fr ∧
    (sign = [] ∨ sign = [ch '-']) ∧ ip ≠ [] ∧ (∀ b ∈ ip, spec_is_digit b = true) ∧
    fr.length = 7 ∧ ∀ b ∈ fr, spec_is_digit b = true

/-- Specification side: the two position fields of one corner with the markers `x` and `y`,
`<x><lon> <y><lat>`, or the bare markers when the corner is absent. -/
def spec_corner (x y : Char) (location : Option Location) : List Byte :=
  match location with
  | some l => [ch x] ++ fmt_7f l.x ++ [ch ' '] ++ [ch y] ++ fmt_7f l.y
  | none => [ch x] ++ [ch ' '] ++ [ch y]

/-- Specification side: the line of a Changeset,
`c<id> k<num_changes> s<created> e<closed> i<uid> u<user> x<lon1> y<lat1> X<lon2> Y<lat2> T<tags>`
and a newline. -/
def spec_changeset_line (esc : Text → List Byte) (c : Changeset) : List Byte :=
  [ch 'c'] ++ fmt_d c.id ++ [ch ' '] ++ [ch 'k'] ++ fmt_d c.num_changes ++ [ch ' '] ++
    [ch 's'] ++ to_iso c.created_at ++ [ch ' '] ++ [ch 'e'] ++ to_iso c.closed_at ++ [ch ' '] ++
    [ch 'i'] ++ fmt_d c.uid ++ [ch ' '] ++ [ch 'u'] ++ esc c.user ++ [ch ' '] ++
    spec_corner 'x' 'y' c.bottom_left ++ [ch ' '] ++ spec_corner 'X' 'Y' c.top_right ++
    [ch ' '] ++ spec_tag_section esc c.tags ++ [ch '\n']

/-! ## The pipeline, `OPLOutputFormat` -/

namespace OPLOutputFormat

/-- A Pending Result, one element of `m_output_queue` (a `std::future<std::string>`): `text` is
the string the future holds once it is resolved, `ready` tells whether it is resolved. -/
structure Pending where
  text : List Byte
  ready : Bool
  deriving DecidableEq

/-- The state of the pipeline around one `OPLOutputFormat` with a single calling thread: the
ordering queue `m_output_queue` (oldest first), the bytes the drain has written to the sink,
whether the caller is inside the `while` loop of `write_buffer`, and whether the drain has
stopped (it has not at the start). -/
structure State where
  m_output_queue : List Pending
  sink : List Byte
  in_write_buffer : Bool
  drain_stopped : Bool := false
  deriving DecidableEq

/-- A pipeline that has done nothing yet. -/
def init : State := { m_output_queue := [], sink := [], in_write_buffer := false }

/-- Modelled from the spec: `osmium::thread::Pool::submit` (`osmium/thread/pool.hpp` is not among
the sources) dispatches the block encoder on the block to a worker and returns at once the Pending
Result, not yet resolved, whose eventual text is what `OPLOutputBlock::operator()` returns for the
block. -/
def submit (buffer : List Entity) : Pending :=
  { text := (OPLOutputBlock.call buffer []).1, ready := false }

/-- Source function `OPLOutputFormat::write_buffer` up to its loop: the Pending Result of the block
is pushed on the queue and the caller enters the loop. -/
def write_buffer_push (s : State) (buffer : List Entity) : State :=
  { s with m_output_queue := s.m_output_queue ++ [submit buffer], in_write_buffer := true }

/-- The loop condition of `write_buffer`, `m_output_queue.size() > 10`: while it holds the caller
sleeps and tests again. -/
def write_buffer_waits (s : State) : Bool := s.m_output_queue.length > 10

/-- The return of `write_buffer`, possible once the loop condition is false. -/
def write_buffer_return (s : State) : Option State :=
  if s.in_write_buffer && !write_buffer_waits s then some { s with in_write_buffer := false }
  else none

/-- Source function `OPLOutputFormat::close`: a Pending Result resolved to the empty string is
pushed on the queue. -/
def close (s : State) : State :=
  { s with m_output_queue := s.m_output_queue ++ [{ text := [], ready := true }] }

/-- Modelled from the spec: a pool worker finishes the block of the `i`-th queued Pending Result,
which resolves it; workers finish in any order. -/
def worker_done (s : State) (i : Nat) : Option State :=
  match s.m_output_queue[i]? with
  | some p =>
    if p.ready then none
    else some { s with m_output_queue := s.m_output_queue.set i { p with ready := true } }
  | none => none

/-- Modelled from the spec: one step of the drain (the consumer of the queue is not among the
sources).  While it has not stopped, it dequeues the oldest Pending Result, which must be
resolved, writes its text to the sink and discards the handle.  It stops after consuming the
sentinel; the sentinel `close` pushes is nothing but a Pending Result resolved to the empty text,
so the drain stops after a Pending Result whose text is empty. -/
def drain (s : State) : Option State :=
  if s.drain_stopped then none
  else
    match s.m_output_queue with
    | p :: rest =>
      if p.ready then
        some { s with m_output_queue := rest, sink := s.sink ++ p.text,
                      drain_stopped := p.text.isEmpty }
      else none
    | [] => none

/-- The atomic steps of the pipeline. -/
inductive Step where
  | write_buffer (buffer : List Entity)
  | write_buffer_return
  | close
  | worker_done (i : Nat)
  | drain
  deriving DecidableEq

/-- The step relation as a function: the state after the step, `none` when the step cannot
happen in `s`.  The caller is one thread, so it starts `write_buffer` or `close` only when it is
not inside `write_buffer`. -/
def step (s : State) : Step → Option State
  | .write_buffer buffer => if s.in_write_buffer then none else some (write_buffer_push s buffer)
  | .write_buffer_return => write_buffer_return s
  | .close => if s.in_write_buffer then none else some (close s)
  | .worker_done i => worker_done s i
  | .drain => drain s

/-- The state after a sequence of steps, `none` when one of them cannot happen. -/
def run (s : State) : List Step → Option State
  | [] => some s
  | a :: rest =>
    match step s a with
    | some s2 => run s2 rest
    | none => none

/-- The blocks passed to `write_buffer` along a sequence of steps, in call order. -/
def submitted : List Step → List (List Entity)
  | [] => []
  | .write_buffer buffer :: rest => buffer :: submitted rest
  | _ :: rest => submitted rest

/-- The number of `close` calls along a sequence of steps. -/
def closes : List Step → Nat
  | [] => 0
  | .close :: rest => closes rest + 1
  | _ :: rest => closes rest

/-- The number of drain steps along a sequence of steps. -/
def drains : List Step → Nat
  | [] => 0
  | .drain :: rest => drains rest + 1
  | _ :: rest => drains rest

/-- Eleven calls of `write_buffer` with the block `buffer`, the first ten of them returned. -/
def eleven_submissions (buffer : List Entity) : List Step :=
  (List.replicate 10 [Step.write_buffer buffer, Step.write_buffer_return]).flatten ++
    [Step.write_buffer buffer]

end OPLOutputFormat

/-! ## The assertion of `output_formatted` and structural bytes -/

/-- The assertion of `OPLOutputBlock::output_formatted`,
`assert(len > 0 && static_cast<size_t>(len) < tmp_buffer_size)`, where `len` is the value
`snprintf` returns: the length of the complete formatted text. -/
def OPLOutputBlock.output_formatted_assert (formatted : List Byte) : Prop :=
  formatted.length > 0 ∧ formatted.length < OPLOutputBlock.tmp_buffer_size

instance (formatted : List Byte) : Decidable (OPLOutputBlock.output_formatted_assert formatted) := by
  unfold OPLOutputBlock.output_formatted_assert
  infer_instance

/-- Specification side: the bytes that must not appear in escaped text, space, comma, `=`, `@`,
the control characters below 0x20 (the newline among them) and 0x7f. -/
def spec_structural (b : Byte) : Bool :=
  b.val == 0x20 || b.val == 0x2c || b.val == 0x3d || b.val == 0x40 || decide (b.val < 0x20) ||
    b.val == 0x7f

/-- Specification side: what the scalar-value scheme emits for one code point, its UTF-8 bytes
when it is allow-listed and otherwise a percent sign followed by the code point in `%04x`. -/
def spec_scalar_piece (c : Char) : List Byte :=
  if spec_allowed c.toNat then utf8_bytes c else ch '%' :: fmt_04x c.toNat

/-- Specification side: the printable ASCII code points other than `%`, `,`, `=` and `@`. -/
def spec_ascii_verbatim (n : Nat) : Bool :=
  decide (0x21 ≤ n) && decide (n ≤ 0x7e) && !(n == 0x25) && !(n == 0x2c) && !(n == 0x3d) &&
    !(n == 0x40)

/-- A step of a pool worker or of the drain, as opposed to a step of the calling thread. -/
def OPLOutputFormat.Step.behind_the_queue : OPLOutputFormat.Step → Bool
  | .worker_done _ => true
  | .drain => true
  | _ => false

/-! ## Theorems -/

/-! ### Digits and lengths of the printf conversions -/

theorem toDigitsCore_fuel (b : Nat) (hb : 2 ≤ b) (fuel : Nat) :
    ∀ (n : Nat) (acc : List Char), n < fuel →
      Nat.toDigitsCore b fuel n acc = Nat.toDigitsCore b (n + 1) n [] ++ acc := by
  induction fuel using Nat.strong_induction_on with
  | _ fuel ih =>
    intro n acc hn
    cases fuel with
    | zero => omega
    | succ f =>
      simp only [Nat.toDigitsCore]
      by_cases h0 : n / b = 0
      · simp [h0]
      · simp only [h0, if_false]
        have hpos : 0 < n := by
          rcases Nat.eq_zero_or_pos n with h | h
          · subst h; simp at h0
          · exact h
        have hlt : n / b < n := Nat.div_lt_self hpos hb
        rw [ih f (by omega) (n / b) _ (by omega), ih n (by omega) (n / b) [_] hlt]
        simp

theorem toDigits_small (b n : Nat) (h : n / b = 0) :
    Nat.toDigits b n = [Nat.digitChar (n % b)] := by
  simp [Nat.toDigits, Nat.toDigitsCore, h]

theorem toDigits_step (b n : Nat) (hb : 2 ≤ b) (h : n / b ≠ 0) :
    Nat.toDigits b n = Nat.toDigits b (n / b) ++ [Nat.digitChar (n % b)] := by
  have hpos : 0 < n := by
    rcases Nat.eq_zero_or_pos n with h1 | h1
    · subst h1; simp at h
    · exact h1
  have hlt : n / b < n := Nat.div_lt_self hpos hb
  simp only [Nat.toDigits, Nat.toDigitsCore, h, if_false]
  rw [toDigitsCore_fuel b hb n (n / b) _ hlt]
  simp only [Nat.toDigitsCore]

theorem toDigits_length_le (b n e : Nat) (hb : 2 ≤ b) (hn : n < b ^ e) (he : 0 < e) :
    (Nat.toDigits b n).length ≤ e :=
  Nat.toDigitsCore_length b hb (n + 1) n e hn he

theorem dec_length_le (n e : Nat) (hn : n < 10 ^ e) (he : 0 < e) : (dec n).length ≤ e := by
  simp only [dec, List.length_map]
  exact toDigits_length_le 10 n e (by decide) hn he

theorem fmt_d_length_int64 (i : Int) (h : int64 i) : (fmt_d i).length ≤ 20 := by
  unfold int64 at h
  unfold fmt_d
  split
  · have := dec_length_le i.natAbs 19 (by omega) (by decide)
    simp only [List.length_cons]; omega
  · have := dec_length_le i.toNat 19 (by omega) (by decide)
    omega

theorem fmt_d_length_int32 (i : Int) (h : int32 i) : (fmt_d i).length ≤ 11 := by
  unfold int32 at h
  unfold fmt_d
  split
  · have := dec_length_le i.natAbs 10 (by omega) (by decide)
    simp only [List.length_cons]; omega
  · have := dec_length_le i.toNat 10 (by omega) (by decide)
    omega

theorem dec_pad_length (w n : Nat) (hw : 0 < w) (hn : n < 10 ^ w) : (dec_pad w n).length = w := by
  have := toDigits_length_le 10 n w (by decide) hn hw
  simp only [dec_pad, List.length_map, List.length_append, List.length_replicate]
  omega

theorem fmt_7f_length (v : Int) (h : int32 v) : (fmt_7f v).length ≤ 12 := by
  unfold int32 at h
  have h1 := dec_length_le (v.natAbs / 10000000) 3 (by omega) (by decide)
  have h2 := dec_pad_length 7 (v.natAbs % 10000000) (by decide) (by omega)
  unfold fmt_7f
  simp only [List.length_append, List.length_cons, List.length_nil, h2]
  split <;> simp <;> omega

theorem fmt_04x_length (c : Nat) (hc : c < 0x110000) : (fmt_04x c).length ≤ 6 := by
  have := toDigits_length_le 16 c 6 (by decide) (by omega) (by decide)
  simp only [fmt_04x, List.length_map, List.length_append, List.length_replicate]
  omega

theorem snprintf_eq (size : Nat) (l : List Byte) (h : l.length ≤ size - 1) :
    snprintf size l = l :=
  List.take_of_length_le h

/-! ### The byte-oriented escaping of the direct writer -/

/-- What one pass of the loop of `OPLOutput::append_encoded_string` appends for the byte `c`. -/
theorem direct_append_cons (m_out : List Byte) (c : Byte) (data : List Byte) :
    OPLOutput.append_encoded_string m_out (c :: data) =
      OPLOutput.append_encoded_string (OPLOutput.append_encoded_string m_out [c]) data := by
  simp only [OPLOutput.append_encoded_string]
  split <;> rfl

set_option maxRecDepth 100000 in
theorem direct_append_single_nil (c : Byte) :
    OPLOutput.append_encoded_string [] [c] = spec_byte_escape c := by
  revert c
  decide

theorem direct_append_single (m_out : List Byte) (c : Byte) :
    OPLOutput.append_encoded_string m_out [c] = m_out ++ spec_byte_escape c := by
  rw [← direct_append_single_nil]
  simp only [OPLOutput.append_encoded_string]
  split <;> simp

theorem direct_append_eq (data : List Byte) : ∀ m_out : List Byte,
    OPLOutput.append_encoded_string m_out data = m_out ++ data.flatMap spec_byte_escape := by
  induction data with
  | nil => intro m_out; simp [OPLOutput.append_encoded_string]
  | cons c data ih =>
    intro m_out
    rw [direct_append_cons, ih, direct_append_single]
    simp [List.flatMap_cons, List.append_assoc]

/-! ### Comma-joining loops -/

theorem intercalate_cons_flatten (sep : List Byte) (x : List Byte) (xs : List (List Byte)) :
    List.intercalate sep (x :: xs) = x ++ (xs.map (fun y => sep ++ y)).flatten := by
  induction xs generalizing x with
  | nil => simp [List.intercalate]
  | cons y ys ih =>
    have h := ih y
    simp only [List.intercalate, List.intersperse_cons_cons, List.flatten_cons] at h ⊢
    rw [h]
    simp

theorem loop_first_false {α : Type} (body : List Byte → α → List Byte) (f : α → List Byte)
    (xs : List α) (hbody : ∀ x ∈ xs, ∀ m, body m x = m ++ f x) :
    ∀ m, loop_first body m false xs = m ++ (xs.map (fun x => [ch ','] ++ f x)).flatten := by
  induction xs with
  | nil => intro m; simp [loop_first]
  | cons x xs ih =>
    intro m
    have hx := hbody x (List.mem_cons_self x xs)
    have hxs : ∀ y ∈ xs, ∀ m, body m y = m ++ f y :=
      fun y hy => hbody y (List.mem_cons_of_mem x hy)
    simp only [loop_first, Bool.false_eq_true, if_false]
    rw [ih hxs, hx]
    simp

theorem loop_first_true {α : Type} (body : List Byte → α → List Byte) (f : α → List Byte)
    (xs : List α) (hbody : ∀ x ∈ xs, ∀ m, body m x = m ++ f x) (m : List Byte) :
    loop_first body m true xs = m ++ List.intercalate [ch ','] (xs.map f) := by
  cases xs with
  | nil => simp [loop_first, List.intercalate]
  | cons x xs =>
    have hx := hbody x (List.mem_cons_self x xs)
    have hxs : ∀ y ∈ xs, ∀ m, body m y = m ++ f y :=
      fun y hy => hbody y (List.mem_cons_of_mem x hy)
    simp only [loop_first, if_true, List.map_cons]
    rw [loop_first_false body f xs hxs, hx, intercalate_cons_flatten]
    simp [List.map_map, Function.comp_def]

/-! ### The block encoder -/

theorem block_append_acc (data : Text) : ∀ m_out : List Byte,
    OPLOutputBlock.append_encoded_string m_out data = m_out ++ block_esc data := by
  unfold block_esc
  induction data with
  | nil => intro m_out; simp [OPLOutputBlock.append_encoded_string]
  | cons c data ih =>
    intro m_out
    simp only [OPLOutputBlock.append_encoded_string]
    split
    · rw [ih (m_out ++ utf8_bytes c), ih ([] ++ utf8_bytes c)]; simp
    · rw [ih (OPLOutputBlock.output_formatted (m_out ++ [ch '%']) _),
        ih (OPLOutputBlock.output_formatted ([] ++ [ch '%']) _)]
      simp [OPLOutputBlock.output_formatted]

theorem block_tag_body_eq (m_out : List Byte) (tag : Tag) :
    OPLOutputBlock.tag_body m_out tag =
      m_out ++ (block_esc tag.key ++ [ch '='] ++ block_esc tag.value) := by
  simp only [OPLOutputBlock.tag_body]
  rw [block_append_acc tag.value, block_append_acc tag.key]
  simp

theorem block_output_formatted_eq (m_out formatted : List Byte) (h : formatted.length ≤ 99) :
    OPLOutputBlock.output_formatted m_out formatted = m_out ++ formatted := by
  simp only [OPLOutputBlock.output_formatted]
  rw [snprintf_eq _ _ (by simpa [OPLOutputBlock.tmp_buffer_size] using h)]

theorem lit_length (s : String) : (lit s).length = (c_str s.data).length := rfl

theorem block_write_meta_eq (m_out : List Byte) (o : OSMObject) (h : o.in_range) :
    OPLOutputBlock.write_meta m_out o =
      m_out ++ spec_meta block_esc o ++ [ch ' '] ++ spec_tag_section block_esc o.tags := by
  obtain ⟨h1, h2, h3, h4⟩ := h
  have l1 := fmt_d_length_int64 _ h1
  have l2 := fmt_d_length_int32 _ h2
  have l3 := fmt_d_length_int32 _ h3
  have l4 := fmt_d_length_int32 _ h4
  have e1 : (lit " v").length = 2 := by decide
  have e2 : (lit " d").length = 2 := by decide
  have e3 : (lit " c").length = 2 := by decide
  have e4 : (lit " t").length = 2 := by decide
  have e5 : (lit " i").length = 2 := by decide
  have e6 : (lit " u").length = 2 := by decide
  have e7 : lit " T" = [ch ' ', ch 'T'] := by decide
  simp only [OPLOutputBlock.write_meta]
  rw [loop_first_true OPLOutputBlock.tag_body
    (fun t => block_esc t.key ++ [ch '='] ++ block_esc t.value) o.tags
    (fun t _ m => block_tag_body_eq m t)]
  rw [block_append_acc]
  rw [block_output_formatted_eq _ _ (by simp only [List.length_append]; omega),
    block_output_formatted_eq _ _ (by simp only [List.length_append]; omega),
    block_output_formatted_eq _ _ (by simp only [List.length_append]; omega)]
  simp [spec_meta, spec_tag_section, spec_tag_list, e7]

theorem block_write_location_xy (m_out : List Byte) (location : Option Location)
    (h : ∀ l ∈ location, l.in_range) :
    OPLOutputBlock.write_location m_out location 'x' 'y' = m_out ++ [ch ' '] ++ spec_xy location := by
  cases location with
  | none =>
    have e : lit "x y" = [ch 'x', ch ' ', ch 'y'] := by decide
    simp [OPLOutputBlock.write_location, spec_xy, e]
  | some l =>
    obtain ⟨hx, hy⟩ := h l rfl
    have lx := fmt_7f_length _ hx
    have ly := fmt_7f_length _ hy
    have e1 : lit " " = [ch ' '] := by decide
    have e2 : lit " y" = [ch ' ', ch 'y'] := by decide
    simp only [OPLOutputBlock.write_location]
    rw [block_output_formatted_eq _ _ (by
      simp only [List.length_append, e1, List.length_cons, List.length_nil]
      omega)]
    simp [spec_xy, e1, e2]

theorem block_ref_body_eq (ref : Int) (h : int64 ref) (m_out : List Byte) :
    OPLOutputBlock.output_formatted m_out (lit "n" ++ fmt_d ref) = m_out ++ ch 'n' :: fmt_d ref := by
  have l1 := fmt_d_length_int64 _ h
  have e1 : lit "n" = [ch 'n'] := by decide
  rw [block_output_formatted_eq _ _ (by
      simp only [List.length_append, e1, List.length_cons, List.length_nil]
      omega)]
  simp [e1]

theorem block_member_body_eq (member : RelationMember) (h : int64 member.ref) (m_out : List Byte) :
    OPLOutputBlock.output_formatted (m_out ++ [ch (item_type_to_char member.type)])
        (fmt_d member.ref ++ lit "@") ++ c_str member.role = m_out ++ spec_member member := by
  have l1 := fmt_d_length_int64 _ h
  have e1 : lit "@" = [ch '@'] := by decide
  rw [block_output_formatted_eq _ _ (by
      simp only [List.length_append, e1, List.length_cons, List.length_nil]
      omega)]
  simp [e1, spec_member]

theorem block_node_eq (m_out : List Byte) (n : Node) (h : (Entity.node n).in_range) :
    OPLOutputBlock.node m_out n = m_out ++ line_tags_first block_esc (.node n) n.toOSMObject := by
  obtain ⟨ho, hl⟩ := h
  simp only [OPLOutputBlock.node]
  rw [block_write_location_xy _ _ hl, block_write_meta_eq _ _ ho]
  simp [line_tags_first, type_letter, spec_variant]

theorem block_way_eq (m_out : List Byte) (w : Way) (h : (Entity.way w).in_range) :
    OPLOutputBlock.way m_out w = m_out ++ line_tags_first block_esc (.way w) w.toOSMObject := by
  obtain ⟨ho, hr⟩ := h
  have e1 : lit " N" = [ch ' ', ch 'N'] := by decide
  simp only [OPLOutputBlock.way]
  rw [loop_first_true _ (fun r => ch 'n' :: fmt_d r) w.nodes
    (fun r hr1 m => block_ref_body_eq r (hr r hr1) m), block_write_meta_eq _ _ ho]
  simp [line_tags_first, type_letter, spec_variant, spec_node_section, e1]

theorem block_relation_eq (m_out : List Byte) (r : Relation) (h : (Entity.relation r).in_range) :
    OPLOutputBlock.relation m_out r =
      m_out ++ line_tags_first block_esc (.relation r) r.toOSMObject := by
  obtain ⟨ho, hr⟩ := h
  have e1 : lit " M" = [ch ' ', ch 'M'] := by decide
  simp only [OPLOutputBlock.relation]
  rw [loop_first_true _ spec_member r.members
    (fun mem hm m => block_member_body_eq mem (hr mem hm) m), block_write_meta_eq _ _ ho]
  simp [line_tags_first, type_letter, spec_variant, spec_member_section, e1]

/-! ### The direct writer -/

theorem direct_append_acc (data : Text) (m_out : List Byte) :
    OPLOutput.append_encoded_string m_out (c_str data) = m_out ++ direct_esc data := by
  unfold direct_esc
  rw [direct_append_eq, direct_append_eq]
  simp

theorem direct_tag_body_eq (m_out : List Byte) (tag : Tag) :
    OPLOutput.tag_body m_out tag =
      m_out ++ (direct_esc tag.key ++ [ch '='] ++ direct_esc tag.value) := by
  simp only [OPLOutput.tag_body]
  rw [direct_append_acc tag.value, direct_append_acc tag.key]
  simp

theorem direct_snprintf_eq (formatted : List Byte) (h : formatted.length ≤ 99) :
    snprintf OPLOutput.tmp_buffer_size formatted = formatted :=
  snprintf_eq _ _ (by simpa [OPLOutput.tmp_buffer_size] using h)

theorem direct_write_meta_eq (m_out : List Byte) (o : OSMObject) (h : o.in_range) :
    OPLOutput.write_meta m_out o = m_out ++ spec_meta direct_esc o := by
  obtain ⟨h1, h2, h3, h4⟩ := h
  have l1 := fmt_d_length_int64 _ h1
  have l2 := fmt_d_length_int32 _ h2
  have l3 := fmt_d_length_int32 _ h3
  have l4 := fmt_d_length_int32 _ h4
  have e1 : (lit " v").length = 2 := by decide
  have e2 : (lit " d").length = 2 := by decide
  have e3 : (lit " c").length = 2 := by decide
  have e4 : (lit " t").length = 2 := by decide
  have e5 : (lit " i").length = 2 := by decide
  have e6 : (lit " u").length = 2 := by decide
  simp only [OPLOutput.write_meta]
  rw [direct_append_acc]
  rw [direct_snprintf_eq _ (by simp only [List.length_append]; omega),
    direct_snprintf_eq _ (by simp only [List.length_append]; omega),
    direct_snprintf_eq _ (by simp only [List.length_append]; omega)]
  simp [spec_meta]

theorem direct_write_tags_eq (m_out : List Byte) (tags : List Tag) :
    OPLOutput.write_tags m_out tags =
      m_out ++ [ch ' '] ++ spec_tag_section direct_esc tags ++ [ch '\n'] := by
  have e7 : lit " T" = [ch ' ', ch 'T'] := by decide
  simp only [OPLOutput.write_tags]
  rw [loop_first_true OPLOutput.tag_body
    (fun t => direct_esc t.key ++ [ch '='] ++ direct_esc t.value) tags
    (fun t _ m => direct_tag_body_eq m t)]
  simp [spec_tag_section, spec_tag_list, e7]

theorem direct_node_text_eq (m_out : List Byte) (n : Node) (h : (Entity.node n).in_range) :
    OPLOutput.node_text m_out n =
      m_out ++ spec_line_tags_last direct_esc (.node n) n.toOSMObject := by
  obtain ⟨ho, hl⟩ := h
  simp only [OPLOutput.node_text]
  rw [direct_write_tags_eq, direct_write_meta_eq _ _ ho]
  cases hloc : n.location with
  | none =>
    have e : lit " x y" = [ch ' ', ch 'x', ch ' ', ch 'y'] := by decide
    have e2 : lit "x y" = [ch 'x', ch ' ', ch 'y'] := by decide
    simp [spec_line_tags_last, type_letter, spec_variant, spec_xy, hloc, e, e2]
  | some l =>
    obtain ⟨hx, hy⟩ := hl l hloc
    have lx := fmt_7f_length _ hx
    have ly := fmt_7f_length _ hy
    have e1 : lit " x" = [ch ' ', ch 'x'] := by decide
    have e2 : lit " y" = [ch ' ', ch 'y'] := by decide
    simp only []
    rw [direct_snprintf_eq _ (by
      simp only [List.length_append, e1, e2, List.length_cons, List.length_nil]
      omega)]
    simp [spec_line_tags_last, type_letter, spec_variant, spec_xy, hloc, e1, e2]

theorem direct_ref_body_eq (ref : Int) (h : int64 ref) (m_out : List Byte) :
    m_out ++ snprintf OPLOutput.tmp_buffer_size (lit "n" ++ fmt_d ref) =
      m_out ++ ch 'n' :: fmt_d ref := by
  have l1 := fmt_d_length_int64 _ h
  have e1 : lit "n" = [ch 'n'] := by decide
  rw [direct_snprintf_eq _ (by
      simp only [List.length_append, e1, List.length_cons, List.length_nil]
      omega)]
  simp [e1]

theorem direct_member_body_eq (member : RelationMember) (h : int64 member.ref)
    (m_out : List Byte) :
    m_out ++ [ch (item_type_to_char member.type)] ++
        snprintf OPLOutput.tmp_buffer_size (fmt_d member.ref ++ lit "@") ++ c_str member.role =
      m_out ++ spec_member member := by
  have l1 := fmt_d_length_int64 _ h
  have e1 : lit "@" = [ch '@'] := by decide
  rw [direct_snprintf_eq _ (by
      simp only [List.length_append, e1, List.length_cons, List.length_nil]
      omega)]
  simp [e1, spec_member]

theorem direct_way_text_eq (m_out : List Byte) (w : Way) (h : (Entity.way w).in_range) :
    OPLOutput.way_text m_out w =
      m_out ++ spec_line_tags_last direct_esc (.way w) w.toOSMObject := by
  obtain ⟨ho, hr⟩ := h
  have e1 : lit " N" = [ch ' ', ch 'N'] := by decide
  simp only [OPLOutput.way_text]
  rw [direct_write_tags_eq, loop_first_true _ (fun r => ch 'n' :: fmt_d r) w.nodes
    (fun r hr1 m => direct_ref_body_eq r (hr r hr1) m), direct_write_meta_eq _ _ ho]
  simp [spec_line_tags_last, type_letter, spec_variant, spec_node_section, e1]

theorem direct_relation_text_eq (m_out : List Byte) (r : Relation)
    (h : (Entity.relation r).in_range) :
    OPLOutput.relation_text m_out r =
      m_out ++ spec_line_tags_last direct_esc (.relation r) r.toOSMObject := by
  obtain ⟨ho, hr⟩ := h
  have e1 : lit " M" = [ch ' ', ch 'M'] := by decide
  simp only [OPLOutput.relation_text]
  rw [direct_write_tags_eq, loop_first_true _ spec_member r.members
    (fun mem hm m => direct_member_body_eq mem (hr mem hm) m), direct_write_meta_eq _ _ ho]
  simp [spec_line_tags_last, type_letter, spec_variant, spec_member_section, e1]

/-! ### Sequences of records -/

theorem direct_flush_if_full_total (s : OPLOutput.State) :
    (OPLOutput.flush_if_full s).fd ++ (OPLOutput.flush_if_full s).m_out = s.fd ++ s.m_out := by
  unfold OPLOutput.flush_if_full
  split <;> simp [OPLOutput.flush]

theorem direct_handle_collection_total (es : List Entity)
    (hobj : ∀ e ∈ es, e.object.isSome = true) (hr : ∀ e ∈ es, e.in_range) :
    ∀ s : OPLOutput.State,
      (OPLOutput.handle_collection s es).fd ++ (OPLOutput.handle_collection s es).m_out =
        s.fd ++ s.m_out ++ es.flatMap (spec_line_of direct_esc) := by
  induction es with
  | nil => intro s; simp [OPLOutput.handle_collection]
  | cons e es ih =>
    intro s
    have he := hr e (List.mem_cons_self e es)
    have hoe := hobj e (List.mem_cons_self e es)
    have ih2 := ih (fun x hx => hobj x (List.mem_cons_of_mem e hx))
      (fun x hx => hr x (List.mem_cons_of_mem e hx))
    cases e with
    | node n =>
      simp only [OPLOutput.handle_collection]
      rw [ih2, OPLOutput.node, direct_flush_if_full_total, direct_node_text_eq _ _ he]
      simp [spec_line_of, Entity.object]
    | way w =>
      simp only [OPLOutput.handle_collection]
      rw [ih2, OPLOutput.way, direct_flush_if_full_total, direct_way_text_eq _ _ he]
      simp [spec_line_of, Entity.object]
    | relation r =>
      simp only [OPLOutput.handle_collection]
      rw [ih2, OPLOutput.relation, direct_flush_if_full_total, direct_relation_text_eq _ _ he]
      simp [spec_line_of, Entity.object]
    | changeset c => simp [Entity.object] at hoe

theorem block_apply_eq (es : List Entity)
    (hobj : ∀ e ∈ es, e.object.isSome = true) (hr : ∀ e ∈ es, e.in_range) :
    ∀ m_out : List Byte,
      OPLOutputBlock.apply m_out es = m_out ++ es.flatMap (line_tags_first_of block_esc) := by
  induction es with
  | nil => intro m_out; simp [OPLOutputBlock.apply]
  | cons e es ih =>
    intro m_out
    have he := hr e (List.mem_cons_self e es)
    have hoe := hobj e (List.mem_cons_self e es)
    have ih2 := ih (fun x hx => hobj x (List.mem_cons_of_mem e hx))
      (fun x hx => hr x (List.mem_cons_of_mem e hx))
    cases e with
    | node n =>
      simp only [OPLOutputBlock.apply]
      rw [ih2, block_node_eq _ _ he]
      simp [line_tags_first_of, Entity.object]
    | way w =>
      simp only [OPLOutputBlock.apply]
      rw [ih2, block_way_eq _ _ he]
      simp [line_tags_first_of, Entity.object]
    | relation r =>
      simp only [OPLOutputBlock.apply]
      rw [ih2, block_relation_eq _ _ he]
      simp [line_tags_first_of, Entity.object]
    | changeset c => simp [Entity.object] at hoe

/-! ### Texts both schemes leave alone -/

theorem safe_code_facts : ∀ n : Fin 128,
    ((97 ≤ n.val && n.val ≤ 122) || (65 ≤ n.val && n.val ≤ 90) || (48 ≤ n.val && n.val ≤ 57) ||
      n.val == 45 || n.val == 95 || n.val == 46 || n.val == 58 || n.val == 59) = true →
    (((0x0021 ≤ n.val && n.val ≤ 0x0024) || (0x0026 ≤ n.val && n.val ≤ 0x002b) ||
      (0x002d ≤ n.val && n.val ≤ 0x003c) || (0x003e ≤ n.val && n.val ≤ 0x003f) ||
      (0x0041 ≤ n.val && n.val ≤ 0x007e) || (0x00a1 ≤ n.val && n.val ≤ 0x00ac) ||
      (0x00ae ≤ n.val && n.val ≤ 0x05ff)) = true) ∧
    spec_byte_escape (Fin.ofNat n.val) = [Fin.ofNat n.val] := by
  decide

theorem safe_char_code (c : Char) (h : safe_char c = true) :
    ∃ n : Fin 128, n.val = c.toNat ∧
      ((97 ≤ n.val && n.val ≤ 122) || (65 ≤ n.val && n.val ≤ 90) || (48 ≤ n.val && n.val ≤ 57) ||
        n.val == 45 || n.val == 95 || n.val == 46 || n.val == 58 || n.val == 59) = true := by
  have ha : 'a'.toNat = 97 := by decide
  have hz : 'z'.toNat = 122 := by decide
  have hA : 'A'.toNat = 65 := by decide
  have hZ : 'Z'.toNat = 90 := by decide
  have h0 : '0'.toNat = 48 := by decide
  have h9 : '9'.toNat = 57 := by decide
  simp only [safe_char, ha, hz, hA, hZ, h0, h9, Bool.or_eq_true, Bool.and_eq_true,
    decide_eq_true_eq, beq_iff_eq] at h
  rcases h with (((((((h | h) | h) | h) | h) | h) | h) | h)
  · exact ⟨⟨c.toNat, by omega⟩, rfl, by simp; omega⟩
  · exact ⟨⟨c.toNat, by omega⟩, rfl, by simp; omega⟩
  · exact ⟨⟨c.toNat, by omega⟩, rfl, by simp; omega⟩
  · subst h; exact ⟨⟨45, by decide⟩, by decide, by decide⟩
  · subst h; exact ⟨⟨95, by decide⟩, by decide, by decide⟩
  · subst h; exact ⟨⟨46, by decide⟩, by decide, by decide⟩
  · subst h; exact ⟨⟨58, by decide⟩, by decide, by decide⟩
  · subst h; exact ⟨⟨59, by decide⟩, by decide, by decide⟩

theorem safe_char_utf8 (c : Char) (h : safe_char c = true) : utf8_bytes c = [Fin.ofNat c.toNat] := by
  obtain ⟨n, hn, _⟩ := safe_char_code c h
  have : c.toNat < 128 := by rw [← hn]; exact n.isLt
  simp [utf8_bytes, this]

theorem block_esc_safe (t : Text) (h : safe_text t) : block_esc t = c_str t := by
  induction t with
  | nil => rfl
  | cons c t ih =>
    have hc : safe_char c = true := h c (List.mem_cons_self c t)
    have ht : safe_text t := fun x hx => h x (List.mem_cons_of_mem c hx)
    obtain ⟨n, hn, hp⟩ := safe_char_code c hc
    have hcond := (safe_code_facts n hp).1
    rw [hn] at hcond
    unfold block_esc
    simp only [OPLOutputBlock.append_encoded_string]
    rw [if_pos hcond, block_append_acc, ih ht]
    simp [c_str]

theorem direct_esc_safe (t : Text) (h : safe_text t) : direct_esc t = c_str t := by
  induction t with
  | nil => rfl
  | cons c t ih =>
    have hc : safe_char c = true := h c (List.mem_cons_self c t)
    have ht : safe_text t := fun x hx => h x (List.mem_cons_of_mem c hx)
    obtain ⟨n, hn, hp⟩ := safe_char_code c hc
    have hesc := (safe_code_facts n hp).2
    rw [hn] at hesc
    have ih2 := ih ht
    unfold direct_esc at ih2 ⊢
    rw [direct_append_eq] at ih2 ⊢
    simp only [List.nil_append] at ih2 ⊢
    simp only [c_str, List.flatMap_cons, List.flatMap_append, safe_char_utf8 c hc,
      List.flatMap_nil, List.append_nil, hesc]
    simp only [c_str] at ih2
    rw [ih2]

theorem spec_meta_congr (esc1 esc2 : Text → List Byte) (o : OSMObject)
    (h : esc1 o.user = esc2 o.user) : spec_meta esc1 o = spec_meta esc2 o := by
  simp [spec_meta, h]

theorem spec_tag_section_congr (esc1 esc2 : Text → List Byte) (tags : List Tag)
    (h : ∀ t ∈ tags, esc1 t.key = esc2 t.key ∧ esc1 t.value = esc2 t.value) :
    spec_tag_section esc1 tags = spec_tag_section esc2 tags := by
  have : tags.map (fun t => esc1 t.key ++ [ch '='] ++ esc1 t.value) =
      tags.map (fun t => esc2 t.key ++ [ch '='] ++ esc2 t.value) := by
    apply List.map_congr_left
    intro t ht
    rw [(h t ht).1, (h t ht).2]
  simp only [spec_tag_section, spec_tag_list, this]

theorem spec_line_of_safe (esc : Text → List Byte) (hesc : ∀ t, safe_text t → esc t = c_str t)
    (e : Entity) (hs : ∀ o ∈ e.object, o.safe) : spec_line_of esc e = spec_line_of c_str e := by
  unfold spec_line_of
  cases ho : e.object with
  | none => rfl
  | some o =>
    obtain ⟨hu, ht⟩ := hs o ho
    simp only [spec_line_tags_last]
    rw [spec_meta_congr esc c_str o (hesc _ hu), spec_tag_section_congr esc c_str o.tags
      (fun t h => ⟨hesc _ (ht t h).1, hesc _ (ht t h).2⟩)]

theorem line_tags_first_of_safe (esc : Text → List Byte)
    (hesc : ∀ t, safe_text t → esc t = c_str t)
    (e : Entity) (hs : ∀ o ∈ e.object, o.safe) :
    line_tags_first_of esc e = line_tags_first_of c_str e := by
  unfold line_tags_first_of
  cases ho : e.object with
  | none => rfl
  | some o =>
    obtain ⟨hu, ht⟩ := hs o ho
    simp only [line_tags_first]
    rw [spec_meta_congr esc c_str o (hesc _ hu), spec_tag_section_congr esc c_str o.tags
      (fun t h => ⟨hesc _ (ht t h).1, hesc _ (ht t h).2⟩)]

theorem flatMap_congr_mem {α : Type} (f g : α → List Byte) (xs : List α)
    (h : ∀ x ∈ xs, f x = g x) : xs.flatMap f = xs.flatMap g := by
  induction xs with
  | nil => rfl
  | cons x xs ih =>
    simp only [List.flatMap_cons]
    rw [h x (List.mem_cons_self x xs), ih (fun y hy => h y (List.mem_cons_of_mem x hy))]

/-! ### C1: the two strategies -/

/-- C1, counterexample.  The sample Point has only safe characters, yet the bytes the direct
writer sends to the sink after `close` differ from the string the block encoder returns. -/
theorem strategies_differ_on_sample_point :
    sample_point.toOSMObject.safe ∧
      (OPLOutput.close (OPLOutput.handle_collection OPLOutput.init [.node sample_point])).fd ≠
        (OPLOutputBlock.call [.node sample_point] []).1 := by
  decide

/-- C1, amended.  For every sequence of Points, Ways and Relations with safe user names, tag keys
and tag values (numbers within their machine types), the direct writer sends to the sink the
concatenation of the lines `<letter><meta> <variant> T<tags>` and the block encoder returns the
concatenation of the lines `<letter><meta> T<tags> <variant>`, built from the same letter, meta
prefix, variant section and tag section with every text verbatim: the outputs agree field by
field and differ only in where the tag section stands. -/
theorem strategies_agree_up_to_tag_position (es : List Entity)
    (hobj : ∀ e ∈ es, e.object.isSome = true) (hsafe : ∀ e ∈ es, ∀ o ∈ e.object, o.safe)
    (hr : ∀ e ∈ es, e.in_range) :
    (OPLOutput.close (OPLOutput.handle_collection OPLOutput.init es)).fd =
        es.flatMap (spec_line_of c_str) ∧
      (OPLOutputBlock.call es []).1 = es.flatMap (line_tags_first_of c_str) := by
  constructor
  · have h := direct_handle_collection_total es hobj hr OPLOutput.init
    simp only [OPLOutput.close, OPLOutput.flush]
    rw [h]
    simp only [OPLOutput.init, List.append_nil, List.nil_append]
    exact flatMap_congr_mem _ _ es
      (fun e he => spec_line_of_safe direct_esc direct_esc_safe e (hsafe e he))
  · simp only [OPLOutputBlock.call]
    rw [block_apply_eq es hobj hr]
    simp only [List.nil_append]
    exact flatMap_congr_mem _ _ es
      (fun e he => line_tags_first_of_safe block_esc block_esc_safe e (hsafe e he))

/-- C1, witness: the amended statement at a sequence of the three sample records. -/
theorem strategies_agree_up_to_tag_position_witness :
    (OPLOutput.close (OPLOutput.handle_collection OPLOutput.init
        [.node sample_point, .way sample_way, .relation sample_relation])).fd =
        [Entity.node sample_point, .way sample_way, .relation sample_relation].flatMap
          (spec_line_of c_str) ∧
      (OPLOutputBlock.call [.node sample_point, .way sample_way, .relation sample_relation] []).1 =
        [Entity.node sample_point, .way sample_way, .relation sample_relation].flatMap
          (line_tags_first_of c_str) :=
  strategies_agree_up_to_tag_position
    [.node sample_point, .way sample_way, .relation sample_relation]
    (by decide) (by decide) (by decide)

/-! ### C2 and C3: the shape of a line -/

/-- C2, counterexample.  The block encoder does not give the sample Point the line of the
concrete scenario, whose tag section stands last. -/
theorem block_sample_point_not_tags_last :
    OPLOutputBlock.node [] sample_point ≠
      lit "n1 v1 dV c1 t2014-01-01T00:00:00Z i1 uu x1.0000000 y2.0000000 Ta=1\n" := by
  decide

/-- C2, amended.  For every Point, Way and Relation (numbers within their machine types) the line
of `OPLOutputBlock::node/way/relation` is the type letter and meta prefix, then the `T`
tag section, then the variant section (x/y, `N` list or `M` list) as the last field before the
newline; the Point of the concrete scenario encodes to
`n1 v1 dV c1 t2014-01-01T00:00:00Z i1 uu Ta=1 x1.0000000 y2.0000000` and one newline. -/
theorem block_line_shape (m_out : List Byte) (n : Node) (w : Way) (r : Relation)
    (hn : (Entity.node n).in_range) (hw : (Entity.way w).in_range)
    (hr : (Entity.relation r).in_range) :
    OPLOutputBlock.node m_out n =
        m_out ++ ([ch 'n'] ++ spec_meta block_esc n.toOSMObject ++ [ch ' '] ++
          spec_tag_section block_esc n.tags ++ [ch ' '] ++ spec_xy n.location ++ [ch '\n']) ∧
      OPLOutputBlock.way m_out w =
        m_out ++ ([ch 'w'] ++ spec_meta block_esc w.toOSMObject ++ [ch ' '] ++
          spec_tag_section block_esc w.tags ++ [ch ' '] ++ spec_node_section w.nodes ++
          [ch '\n']) ∧
      OPLOutputBlock.relation m_out r =
        m_out ++ ([ch 'r'] ++ spec_meta block_esc r.toOSMObject ++ [ch ' '] ++
          spec_tag_section block_esc r.tags ++ [ch ' '] ++ spec_member_section r.members ++
          [ch '\n']) ∧
      OPLOutputBlock.node [] sample_point =
        lit "n1 v1 dV c1 t2014-01-01T00:00:00Z i1 uu Ta=1 x1.0000000 y2.0000000\n" := by
  refine ⟨?_, ?_, ?_, by decide⟩
  · rw [block_node_eq m_out n hn]; rfl
  · rw [block_way_eq m_out w hw]; rfl
  · rw [block_relation_eq m_out r hr]; rfl

/-- C2, witness: the amended statement at the sample records. -/
theorem block_line_shape_witness :
    OPLOutputBlock.way [] sample_way =
      lit "w1 v1 dV c1 t2014-01-01T00:00:00Z i1 uu Ta=1 Nn10,n11,n-12,n10\n" ∧
    OPLOutputBlock.relation [] sample_relation =
      [] ++ ([ch 'r'] ++ spec_meta block_esc sample_relation.toOSMObject ++ [ch ' '] ++
          spec_tag_section block_esc sample_relation.tags ++ [ch ' '] ++
          spec_member_section sample_relation.members ++ [ch '\n']) :=
  ⟨by decide,
   (block_line_shape [] sample_point sample_way sample_relation
      (by decide) (by decide) (by decide)).2.2.1⟩

/-- C3.  For every Point, Way and Relation (numbers within their machine types) the text
`OPLOutput::node/way/relation` appends to the accumulator is the type letter and meta prefix, then
the variant section (x/y, `N` list or `M` list), then the `T` tag section, then one newline; the
Point of the concrete scenario is appended as
`n1 v1 dV c1 t2014-01-01T00:00:00Z i1 uu x1.0000000 y2.0000000 Ta=1` and one newline. -/
theorem direct_line_shape (m_out : List Byte) (n : Node) (w : Way) (r : Relation)
    (hn : (Entity.node n).in_range) (hw : (Entity.way w).in_range)
    (hr : (Entity.relation r).in_range) :
    OPLOutput.node_text m_out n =
        m_out ++ ([ch 'n'] ++ spec_meta direct_esc n.toOSMObject ++ [ch ' '] ++
          spec_xy n.location ++ [ch ' '] ++ spec_tag_section direct_esc n.tags ++ [ch '\n']) ∧
      OPLOutput.way_text m_out w =
        m_out ++ ([ch 'w'] ++ spec_meta direct_esc w.toOSMObject ++ [ch ' '] ++
          spec_node_section w.nodes ++ [ch ' '] ++ spec_tag_section direct_esc w.tags ++
          [ch '\n']) ∧
      OPLOutput.relation_text m_out r =
        m_out ++ ([ch 'r'] ++ spec_meta direct_esc r.toOSMObject ++ [ch ' '] ++
          spec_member_section r.members ++ [ch ' '] ++ spec_tag_section direct_esc r.tags ++
          [ch '\n']) ∧
      OPLOutput.node_text [] sample_point =
        lit "n1 v1 dV c1 t2014-01-01T00:00:00Z i1 uu x1.0000000 y2.0000000 Ta=1\n" := by
  refine ⟨?_, ?_, ?_, by decide⟩
  · rw [direct_node_text_eq m_out n hn]; rfl
  · rw [direct_way_text_eq m_out w hw]; rfl
  · rw [direct_relation_text_eq m_out r hr]; rfl

/-- C3, witness: the statement at the sample records. -/
theorem direct_line_shape_witness :
    OPLOutput.way_text [] sample_way =
      lit "w1 v1 dV c1 t2014-01-01T00:00:00Z i1 uu Nn10,n11,n-12,n10 Ta=1\n" ∧
    OPLOutput.relation_text [] sample_relation =
      [] ++ ([ch 'r'] ++ spec_meta direct_esc sample_relation.toOSMObject ++ [ch ' '] ++
          spec_member_section sample_relation.members ++ [ch ' '] ++
          spec_tag_section direct_esc sample_relation.tags ++ [ch '\n']) :=
  ⟨by decide,
   (direct_line_shape [] sample_point sample_way sample_relation
      (by decide) (by decide) (by decide)).2.2.1⟩

/-! ### C4 and C5: the scalar-value escaping of the block encoder -/

theorem ch_digitChar_mod (k : Nat) : ch (Nat.digitChar (k % 16)) = spec_hex_digit (k % 16) := by
  have key : ∀ i : Fin 16, ch (Nat.digitChar i.val) = spec_hex_digit i.val := by decide
  exact key ⟨k % 16, Nat.mod_lt _ (by decide)⟩

theorem fmt_04x_bmp (c : Nat) (hc : c < 65536) :
    ch '%' :: fmt_04x c = spec_percent_4 c := by
  have z : ch '0' = spec_hex_digit 0 := by decide
  have p : ch '%' = (37 : Byte) := by decide
  have k0 := ch_digitChar_mod c
  have k1 := ch_digitChar_mod (c / 16)
  have k2 := ch_digitChar_mod (c / 16 / 16)
  have k3 := ch_digitChar_mod (c / 16 / 16 / 16)
  have e1 : c / 16 / 16 % 16 = c / 256 % 16 := by omega
  have e2 : c / 16 / 16 / 16 % 16 = c / 4096 % 16 := by omega
  rw [e1] at k2
  rw [e2] at k3
  unfold fmt_04x spec_percent_4
  by_cases h1 : c / 16 = 0
  · have a2 : c / 256 % 16 = 0 := by omega
    have a3 : c / 4096 % 16 = 0 := by omega
    have a1 : c / 16 % 16 = 0 := by omega
    rw [toDigits_small 16 c h1]
    simp [List.replicate, k0, z, p, a1, a2, a3]
  · rw [toDigits_step 16 c (by decide) h1]
    by_cases h2 : c / 16 / 16 = 0
    · have a2 : c / 256 % 16 = 0 := by omega
      have a3 : c / 4096 % 16 = 0 := by omega
      rw [toDigits_small 16 (c / 16) h2]
      simp [List.replicate, k0, k1, z, p, a2, a3]
    · rw [toDigits_step 16 (c / 16) (by decide) h2]
      by_cases h3 : c / 16 / 16 / 16 = 0
      · have a3 : c / 4096 % 16 = 0 := by omega
        rw [toDigits_small 16 (c / 16 / 16) h3]
        simp [List.replicate, k0, k1, k2, e1, z, p, a3]
      · rw [toDigits_step 16 (c / 16 / 16) (by decide) h3,
          toDigits_small 16 (c / 16 / 16 / 16) (by omega)]
        simp [List.replicate, k0, k1, k2, k3, e1, e2, p]

theorem spec_allowed_eq (c : Nat) :
    spec_allowed c =
      ((0x0021 ≤ c && c ≤ 0x0024) || (0x0026 ≤ c && c ≤ 0x002b) ||
       (0x002d ≤ c && c ≤ 0x003c) || (0x003e ≤ c && c ≤ 0x003f) ||
       (0x0041 ≤ c && c ≤ 0x007e) || (0x00a1 ≤ c && c ≤ 0x00ac) ||
       (0x00ae ≤ c && c ≤ 0x05ff)) := by
  simp [spec_allowed, spec_allow_list, List.any, Bool.or_assoc]

theorem block_append_single (m_out : List Byte) (c : Char) (hc : c.toNat ≤ 0xFFFF) :
    OPLOutputBlock.append_encoded_string m_out [c] =
      m_out ++ (if spec_allowed c.toNat then utf8_bytes c else spec_percent_4 c.toNat) := by
  have h4 := fmt_04x_bmp c.toNat (by omega)
  have hl : (fmt_04x c.toNat).length ≤ 99 := by
    have := fmt_04x_length c.toNat (by omega)
    omega
  simp only [OPLOutputBlock.append_encoded_string, ← spec_allowed_eq]
  split
  · rfl
  · rw [block_output_formatted_eq _ _ hl, ← h4]
    simp

/-- C4, counterexample.  U+1F600 is not allow-listed and its output is `%1f600`, a percent sign
and five hexadecimal digits, not a percent sign and exactly four. -/
theorem block_escape_astral_not_four_digits :
    OPLOutputBlock.append_encoded_string [] [Char.ofNat 0x1F600] = lit "%1f600" ∧
      ¬ spec_scalar_escaped (Char.ofNat 0x1F600)
          (OPLOutputBlock.append_encoded_string [] [Char.ofNat 0x1F600]) := by
  have hout : OPLOutputBlock.append_encoded_string [] [Char.ofNat 0x1F600] = lit "%1f600" := by
    decide
  refine ⟨hout, ?_⟩
  have hna : spec_allowed (Char.ofNat 0x1F600).toNat = false := by decide
  rw [hout]
  unfold spec_scalar_escaped
  rw [hna]
  simp only [Bool.false_eq_true, if_false]
  rintro ⟨d3, d2, d1, d0, -, -, -, -, h, -⟩
  have hlen := congrArg List.length h
  have h6 : (lit "%1f600").length = 6 := by decide
  rw [h6] at hlen
  simp at hlen

/-- C4, amended.  For every Unicode scalar value `c` up to 0xFFFF: if `c` is in the allow-list it
is emitted verbatim as its UTF-8 encoding, and otherwise the output for `c` is a percent sign
followed by exactly 4 lowercase hexadecimal digits, zero-padded, whose value is `c`. -/
theorem block_escape_scalar (m_out : List Byte) (c : Char) (hc : c.toNat ≤ 0xFFFF) :
    OPLOutputBlock.append_encoded_string m_out [c] =
        m_out ++ (if spec_allowed c.toNat then utf8_bytes c else spec_percent_4 c.toNat) ∧
      spec_scalar_escaped c (OPLOutputBlock.append_encoded_string [] [c]) := by
  refine ⟨block_append_single m_out c hc, ?_⟩
  rw [block_append_single [] c hc]
  unfold spec_scalar_escaped
  split
  · simp
  · refine ⟨c.toNat / 4096 % 16, c.toNat / 256 % 16, c.toNat / 16 % 16, c.toNat % 16,
      Nat.mod_lt _ (by decide), Nat.mod_lt _ (by decide), Nat.mod_lt _ (by decide),
      Nat.mod_lt _ (by decide), ?_, by omega⟩
    simp [spec_percent_4]

/-- C4, witness: the amended statement at U+0020 (escaped) and at U+00E9 (verbatim). -/
theorem block_escape_scalar_witness :
    (OPLOutputBlock.append_encoded_string [] [' '] = lit "%0020" ∧
        spec_scalar_escaped ' ' (OPLOutputBlock.append_encoded_string [] [' '])) ∧
      OPLOutputBlock.append_encoded_string [] [Char.ofNat 0xE9] = [0xC3, 0xA9] :=
  ⟨⟨by decide, (block_escape_scalar [] ' ' (by decide)).2⟩, by decide⟩

/-- C5, the code at the failing input.  The one-character text U+1F600 and the two-character text
U+1F60 `0` are different and get the same escaped form `%1f600`; hence no decoder recovers every
text from its escaped form. -/
theorem block_escape_collision :
    [Char.ofNat 0x1F600] ≠ [Char.ofNat 0x1F60, '0'] ∧
      OPLOutputBlock.append_encoded_string [] [Char.ofNat 0x1F600] = lit "%1f600" ∧
      OPLOutputBlock.append_encoded_string [] [Char.ofNat 0x1F60, '0'] = lit "%1f600" ∧
      ¬ ∃ decode : List Byte → Text,
          ∀ t : Text, decode (OPLOutputBlock.append_encoded_string [] t) = t := by
  have h1 : OPLOutputBlock.append_encoded_string [] [Char.ofNat 0x1F600] = lit "%1f600" := by
    decide
  have h2 : OPLOutputBlock.append_encoded_string [] [Char.ofNat 0x1F60, '0'] = lit "%1f600" := by
    decide
  have hne : [Char.ofNat 0x1F600] ≠ [Char.ofNat 0x1F60, '0'] := by decide
  refine ⟨hne, h1, h2, ?_⟩
  rintro ⟨decode, hd⟩
  have a := hd [Char.ofNat 0x1F600]
  have b := hd [Char.ofNat 0x1F60, '0']
  rw [h1] at a
  rw [h2] at b
  exact hne (a.symm.trans b)

/-! ### C6 and C7: the byte-oriented escaping of the direct writer -/

/-- C6.  For every byte string, the output of `OPLOutput::append_encoded_string` is the
concatenation, byte by byte in order, of the byte itself when it is an ASCII letter, an ASCII
digit or one of `- _ . : ;`, and otherwise of `%` followed by exactly two lowercase hexadecimal
digits, high nibble first, of the byte's value. -/
theorem direct_escape_bytewise (m_out data : List Byte) :
    OPLOutput.append_encoded_string m_out data = m_out ++ data.flatMap spec_byte_escape :=
  direct_append_eq data m_out

set_option maxRecDepth 100000 in
theorem spec_byte_facts : ∀ b : Byte,
    (spec_byte_verbatim b = true → (b.val == 37) = false) ∧
    (spec_byte_verbatim b = false →
      spec_hex_value (spec_hex_digit (b.val / 16)) = some (b.val / 16) ∧
      spec_hex_value (spec_hex_digit (b.val % 16)) = some (b.val % 16) ∧
      (Fin.ofNat (b.val / 16 * 16 + b.val % 16) : Byte) = b) := by
  decide

theorem spec_byte_unescape_verbatim (b : Byte) (h : (b.val == 37) = false) (xs : List Byte) :
    spec_byte_unescape (b :: xs) = b :: spec_byte_unescape xs := by
  match xs with
  | [] => simp [spec_byte_unescape]
  | [c] => simp [spec_byte_unescape]
  | c :: d :: ys => simp [spec_byte_unescape, h]

theorem spec_byte_unescape_escape (b : Byte) (xs : List Byte) :
    spec_byte_unescape (spec_byte_escape b ++ xs) = b :: spec_byte_unescape xs := by
  obtain ⟨hv, he⟩ := spec_byte_facts b
  unfold spec_byte_escape
  cases hb : spec_byte_verbatim b with
  | true =>
    simp only [if_true, List.singleton_append]
    exact spec_byte_unescape_verbatim b (hv hb) xs
  | false =>
    obtain ⟨e1, e2, e3⟩ := he hb
    have h37 : ((37 : Byte).val == 37) = true := by decide
    simp only [Bool.false_eq_true, if_false, List.cons_append, List.nil_append,
      spec_byte_unescape, h37, e1, e2, e3]
    rfl

theorem spec_byte_unescape_flatMap (s : List Byte) :
    spec_byte_unescape (s.flatMap spec_byte_escape) = s := by
  induction s with
  | nil => simp [spec_byte_unescape]
  | cons b s ih => rw [List.flatMap_cons, spec_byte_unescape_escape, ih]

/-- C7.  For every byte string `s`, percent-decoding the output of
`OPLOutput::append_encoded_string` yields exactly `s`; hence two different inputs never produce
the same escaped text. -/
theorem direct_escape_round_trip :
    (∀ s : List Byte, spec_byte_unescape (OPLOutput.append_encoded_string [] s) = s) ∧
      Function.Injective (OPLOutput.append_encoded_string []) := by
  have rt : ∀ s : List Byte, spec_byte_unescape (OPLOutput.append_encoded_string [] s) = s := by
    intro s
    rw [direct_append_eq, List.nil_append, spec_byte_unescape_flatMap]
  refine ⟨rt, ?_⟩
  intro s t h
  rw [← rt s, ← rt t, h]

/-- C7, witness: the round trip at the bytes of `a b,c@é%41`. -/
theorem direct_escape_round_trip_witness :
    OPLOutput.append_encoded_string [] (c_str "a b,c@é%41".data) =
        lit "a%20b%2cc%40%c3%a9%2541" ∧
      spec_byte_unescape (OPLOutput.append_encoded_string [] (c_str "a b,c@é%41".data)) =
        c_str "a b,c@é%41".data :=
  ⟨by decide, direct_escape_round_trip.1 (c_str "a b,c@é%41".data)⟩

/-! ### C8: one newline per line -/

/-- C8, the code at the failing input.  For the Relation whose member has the role U+000A both
encoders put the role into the line unescaped, so the line holds two newline characters and the
first of them is not its last character. -/
theorem relation_role_newline_breaks_line :
    OPLOutputBlock.relation [] sample_relation_newline_role =
        lit "r1 v1 dV c1 t2014-01-01T00:00:00Z i1 uu Ta=1 Mn10@\n\n" ∧
      OPLOutput.relation_text [] sample_relation_newline_role =
        lit "r1 v1 dV c1 t2014-01-01T00:00:00Z i1 uu Mn10@\n Ta=1\n" ∧
      (OPLOutputBlock.relation [] sample_relation_newline_role).count (ch '\n') = 2 ∧
      (OPLOutput.relation_text [] sample_relation_newline_role).count (ch '\n') = 2 := by
  decide

/-! ### C9: the tag section -/

/-- C9.  The tag section written by each encoder is a space, the letter `T` and the tags
`esc(k1)=esc(v1),...,esc(kn)=esc(vn)` joined by single commas in the original order: what
`OPLOutputBlock::write_meta` and `OPLOutputBlock::changeset` write before it does not depend on the
tags, `OPLOutput::write_tags` appends it followed by the newline, and for zero tags the section is
the bare `T`. -/
theorem tag_section_shape (m_out : List Byte) (o : OSMObject) (c : Changeset) :
    (∃ pre : List Byte, ∀ tags : List Tag,
        OPLOutputBlock.write_meta m_out { o with tags := tags } =
          pre ++ [ch ' '] ++ spec_tag_section block_esc tags) ∧
      (∃ pre : List Byte, ∀ tags : List Tag,
        OPLOutputBlock.changeset m_out { c with tags := tags } =
          pre ++ [ch ' '] ++ spec_tag_section block_esc tags ++ [ch '\n']) ∧
      (∀ tags : List Tag,
        OPLOutput.write_tags m_out tags =
          m_out ++ [ch ' '] ++ spec_tag_section direct_esc tags ++ [ch '\n']) ∧
      spec_tag_section block_esc [] = [ch 'T'] ∧ spec_tag_section direct_esc [] = [ch 'T'] ∧
      (∀ k v : Text, spec_tag_section block_esc [{ key := k, value := v }] =
        [ch 'T'] ++ block_esc k ++ [ch '='] ++ block_esc v) ∧
      (∀ (k v : Text) (t : Tag) (ts : List Tag),
        spec_tag_section direct_esc ({ key := k, value := v } :: t :: ts) =
          [ch 'T'] ++ direct_esc k ++ [ch '='] ++ direct_esc v ++ [ch ','] ++
            spec_tag_list direct_esc (t :: ts)) := by
  have e7 : lit " T" = [ch ' ', ch 'T'] := by decide
  refine ⟨⟨OPLOutputBlock.write_meta m_out { o with tags := [] } |>.dropLast |>.dropLast, ?_⟩,
    ⟨OPLOutputBlock.changeset m_out { c with tags := [] } |>.dropLast |>.dropLast |>.dropLast,
      ?_⟩,
    direct_write_tags_eq m_out, rfl, rfl, ?_, ?_⟩
  · intro tags
    simp only [OPLOutputBlock.write_meta]
    rw [loop_first_true OPLOutputBlock.tag_body
      (fun t => block_esc t.key ++ [ch '='] ++ block_esc t.value) tags
      (fun t _ m => block_tag_body_eq m t)]
    simp [loop_first, spec_tag_section, spec_tag_list, e7, List.dropLast_append_cons,
      List.dropLast_append_of_ne_nil]
  · intro tags
    simp only [OPLOutputBlock.changeset]
    rw [loop_first_true OPLOutputBlock.tag_body
      (fun t => block_esc t.key ++ [ch '='] ++ block_esc t.value) tags
      (fun t _ m => block_tag_body_eq m t)]
    simp [loop_first, spec_tag_section, spec_tag_list, e7, List.dropLast_append_cons,
      List.dropLast_append_of_ne_nil]
  · intro k v
    simp [spec_tag_section, spec_tag_list, List.intercalate]
  · intro k v t ts
    simp [spec_tag_section, spec_tag_list, List.intercalate]

/-! ### C10: reference lists keep their order -/

/-- C10.  For every Way with node references `r1,...,rn` (64-bit, repeats allowed) both encoders
write the node section as `N` followed by the strings `n<ri>` joined by single commas in the
original order, bare `N` for no reference; for every Relation with members `m1,...,mn` both write
the member section as `M` followed by `<type_char><ref>@<role>` joined by commas in the original
order, with the type character one of `n`, `w`, `r`. -/
theorem reference_lists_in_order (m_out : List Byte) (w : Way) (r : Relation)
    (hw : ∀ x ∈ w.nodes, int64 x) (hr : ∀ mem ∈ r.members, int64 mem.ref) :
    OPLOutputBlock.way m_out w =
        OPLOutputBlock.write_meta (m_out ++ [ch 'w']) w.toOSMObject ++ [ch ' '] ++
          spec_node_section w.nodes ++ [ch '\n'] ∧
      OPLOutput.way_text m_out w =
        OPLOutput.write_tags
          (OPLOutput.write_meta (m_out ++ [ch 'w']) w.toOSMObject ++ [ch ' '] ++
            spec_node_section w.nodes) w.tags ∧
      OPLOutputBlock.relation m_out r =
        OPLOutputBlock.write_meta (m_out ++ [ch 'r']) r.toOSMObject ++ [ch ' '] ++
          spec_member_section r.members ++ [ch '\n'] ∧
      OPLOutput.relation_text m_out r =
        OPLOutput.write_tags
          (OPLOutput.write_meta (m_out ++ [ch 'r']) r.toOSMObject ++ [ch ' '] ++
            spec_member_section r.members) r.tags ∧
      spec_node_section [] = [ch 'N'] ∧
      (∀ mem ∈ r.members, item_type_to_char mem.type ∈ ['n', 'w', 'r']) := by
  have e1 : lit " N" = [ch ' ', ch 'N'] := by decide
  have e2 : lit " M" = [ch ' ', ch 'M'] := by decide
  refine ⟨?_, ?_, ?_, ?_, rfl, ?_⟩
  · simp only [OPLOutputBlock.way]
    rw [loop_first_true _ (fun x => ch 'n' :: fmt_d x) w.nodes
      (fun x hx m => block_ref_body_eq x (hw x hx) m)]
    simp [spec_node_section, e1]
  · simp only [OPLOutput.way_text]
    rw [loop_first_true _ (fun x => ch 'n' :: fmt_d x) w.nodes
      (fun x hx m => direct_ref_body_eq x (hw x hx) m)]
    simp [spec_node_section, e1]
  · simp only [OPLOutputBlock.relation]
    rw [loop_first_true _ spec_member r.members
      (fun mem hm m => block_member_body_eq mem (hr mem hm) m)]
    simp [spec_member_section, e2]
  · simp only [OPLOutput.relation_text]
    rw [loop_first_true _ spec_member r.members
      (fun mem hm m => direct_member_body_eq mem (hr mem hm) m)]
    simp [spec_member_section, e2]
  · intro mem _
    cases mem.type <;> simp [item_type_to_char]

/-- C10, witness: the statement at the sample Way, whose first reference is repeated at the end,
and the sample Relation. -/
theorem reference_lists_in_order_witness :
    spec_node_section sample_way.nodes = lit "Nn10,n11,n-12,n10" ∧
      spec_member_section sample_relation.members = lit "Mn10@stop,w20@,r30@x" ∧
      OPLOutputBlock.way [] sample_way =
        OPLOutputBlock.write_meta ([] ++ [ch 'w']) sample_way.toOSMObject ++ [ch ' '] ++
          spec_node_section sample_way.nodes ++ [ch '\n'] :=
  ⟨by decide, by decide,
   (reference_lists_in_order [] sample_way sample_relation (by decide) (by decide)).1⟩

/-! ### C11: absent coordinates -/

theorem toDigits_ten_digits (n : Nat) : ∀ c ∈ Nat.toDigits 10 n, spec_is_digit (ch c) = true := by
  have key : ∀ k : Fin 10, spec_is_digit (ch (Nat.digitChar k.val)) = true := by decide
  induction n using Nat.strong_induction_on with
  | _ n ih =>
    by_cases h : n / 10 = 0
    · rw [toDigits_small 10 n h]
      intro c hc
      rw [List.mem_singleton] at hc
      subst hc
      exact key ⟨n % 10, Nat.mod_lt _ (by decide)⟩
    · rw [toDigits_step 10 n (by decide) h]
      intro c hc
      rw [List.mem_append, List.mem_singleton] at hc
      rcases hc with hc | hc
      · exact ih (n / 10) (by omega) c hc
      · subst hc
        exact key ⟨n % 10, Nat.mod_lt _ (by decide)⟩

theorem toDigits_ne_nil (b n : Nat) (hb : 2 ≤ b) : Nat.toDigits b n ≠ [] := by
  by_cases h : n / b = 0
  · rw [toDigits_small b n h]; simp
  · rw [toDigits_step b n hb h]; simp

theorem dec_digits (n : Nat) : ∀ b ∈ dec n, spec_is_digit b = true := by
  intro b hb
  simp only [dec, List.mem_map] at hb
  obtain ⟨c, hc, rfl⟩ := hb
  exact toDigits_ten_digits n c hc

theorem dec_pad_digits (w n : Nat) : ∀ b ∈ dec_pad w n, spec_is_digit b = true := by
  intro b hb
  simp only [dec_pad, List.mem_map, List.mem_append, List.mem_replicate] at hb
  obtain ⟨c, hc | hc, rfl⟩ := hb
  · rw [hc.2]; decide
  · exact toDigits_ten_digits n c hc

theorem fmt_7f_seven_decimals (v : Int) : spec_seven_decimals (fmt_7f v) := by
  refine ⟨if v < 0 then [ch '-'] else [], dec (v.natAbs / 10000000),
    dec_pad 7 (v.natAbs % 10000000), rfl, ?_, ?_, dec_digits _, ?_, dec_pad_digits _ _⟩
  · split <;> simp
  · simp only [dec, ne_eq, List.map_eq_nil_iff]
    exact toDigits_ne_nil 10 _ (by decide)
  · exact dec_pad_length 7 _ (by decide) (Nat.mod_lt _ (by decide))

theorem block_write_location_some (m_out : List Byte) (l : Location) (h : l.in_range)
    (x y : Char) :
    OPLOutputBlock.write_location m_out (some l) x y =
      m_out ++ [ch ' '] ++ spec_corner x y (some l) := by
  obtain ⟨hx, hy⟩ := h
  have lx := fmt_7f_length _ hx
  have ly := fmt_7f_length _ hy
  have e1 : lit " " = [ch ' '] := by decide
  simp only [OPLOutputBlock.write_location]
  rw [block_output_formatted_eq _ _ (by
    simp only [List.length_append, e1, List.length_cons, List.length_nil]
    omega)]
  simp [spec_corner, e1]

theorem block_write_location_eq (m_out : List Byte) (location : Option Location)
    (h : ∀ l ∈ location, l.in_range) (x y : Char) :
    OPLOutputBlock.write_location m_out location x y =
      m_out ++ [ch ' '] ++ spec_corner x y location := by
  cases location with
  | none => simp [OPLOutputBlock.write_location, spec_corner]
  | some l => exact block_write_location_some m_out l (h l rfl) x y

theorem direct_node_text_unfold (m_out : List Byte) (n : Node) :
    OPLOutput.node_text m_out n =
      OPLOutput.write_tags
        (match n.location with
          | some l =>
            OPLOutput.write_meta (m_out ++ [ch 'n']) n.toOSMObject ++
              snprintf OPLOutput.tmp_buffer_size (lit " x" ++ fmt_7f l.x ++ lit " y" ++ fmt_7f l.y)
          | none => OPLOutput.write_meta (m_out ++ [ch 'n']) n.toOSMObject ++ lit " x y")
        n.tags := rfl

theorem block_node_absent_ne_origin (m_out : List Byte) (n : Node) :
    OPLOutputBlock.node m_out { n with location := none } ≠
      OPLOutputBlock.node m_out { n with location := some { x := 0, y := 0 } } := by
  have hr : ({ x := 0, y := 0 } : Location).in_range := by decide
  have l1 : (spec_corner 'x' 'y' none).length = 3 := by decide
  have l2 : (spec_corner 'x' 'y' (some { x := 0, y := 0 })).length = 21 := by decide
  intro h
  simp only [OPLOutputBlock.node] at h
  rw [block_write_location_eq _ none (by simp) 'x' 'y',
    block_write_location_some _ _ hr 'x' 'y'] at h
  have hlen := congrArg List.length h
  simp only [List.length_append, l1, l2] at hlen
  omega

theorem direct_node_absent_ne_origin (m_out : List Byte) (n : Node) :
    OPLOutput.node_text m_out { n with location := none } ≠
      OPLOutput.node_text m_out { n with location := some { x := 0, y := 0 } } := by
  have l1 : (lit " x y").length = 4 := by decide
  have l2 : (snprintf OPLOutput.tmp_buffer_size
      (lit " x" ++ fmt_7f (0 : Int) ++ lit " y" ++ fmt_7f (0 : Int))).length = 22 := by decide
  intro h
  rw [direct_node_text_unfold, direct_node_text_unfold] at h
  simp only [direct_write_tags_eq] at h
  have hlen := congrArg List.length h
  simp only [List.length_append, l1, l2] at hlen
  omega

/-- C11.  For every Point with no location set both encoders render the position fields as
exactly ` x y`; for a Point with a location (coordinates within their 32-bit storage) each of `x`
and `y` is followed by a decimal number with exactly 7 digits after the decimal point; and the
line of a Point without location differs from the line of the same Point at (0,0). -/
theorem absent_location_bare_markers (m_out : List Byte) (n : Node) (l : Location)
    (hl : l.in_range) :
    OPLOutputBlock.write_location m_out none 'x' 'y' = m_out ++ lit " x y" ∧
      OPLOutput.node_text m_out { n with location := none } =
        OPLOutput.write_tags
          (OPLOutput.write_meta (m_out ++ [ch 'n']) n.toOSMObject ++ lit " x y") n.tags ∧
      OPLOutputBlock.write_location m_out (some l) 'x' 'y' =
        m_out ++ lit " x" ++ fmt_7f l.x ++ lit " y" ++ fmt_7f l.y ∧
      OPLOutput.node_text m_out { n with location := some l } =
        OPLOutput.write_tags
          (OPLOutput.write_meta (m_out ++ [ch 'n']) n.toOSMObject ++
            (lit " x" ++ fmt_7f l.x ++ lit " y" ++ fmt_7f l.y)) n.tags ∧
      spec_seven_decimals (fmt_7f l.x) ∧ spec_seven_decimals (fmt_7f l.y) ∧
      OPLOutputBlock.node m_out { n with location := none } ≠
        OPLOutputBlock.node m_out { n with location := some { x := 0, y := 0 } } ∧
      OPLOutput.node_text m_out { n with location := none } ≠
        OPLOutput.node_text m_out { n with location := some { x := 0, y := 0 } } := by
  have e0 : lit " x y" = [ch ' ', ch 'x', ch ' ', ch 'y'] := by decide
  have e1 : lit " x" = [ch ' ', ch 'x'] := by decide
  have e2 : lit " y" = [ch ' ', ch 'y'] := by decide
  have lx := fmt_7f_length _ hl.1
  have ly := fmt_7f_length _ hl.2
  refine ⟨?_, rfl, ?_, ?_, fmt_7f_seven_decimals _, fmt_7f_seven_decimals _,
    block_node_absent_ne_origin m_out n, direct_node_absent_ne_origin m_out n⟩
  · simp [OPLOutputBlock.write_location, e0]
  · rw [block_write_location_some m_out l hl 'x' 'y']
    simp [spec_corner, e1, e2]
  · rw [direct_node_text_unfold]
    simp only []
    rw [direct_snprintf_eq _ (by
      simp only [List.length_append, e1, e2, List.length_cons, List.length_nil]
      omega)]

/-- C11, witness: the statement at the sample Point and the location (0,0). -/
theorem absent_location_bare_markers_witness :
    OPLOutputBlock.node [] { sample_point with location := none } =
        lit "n1 v1 dV c1 t2014-01-01T00:00:00Z i1 uu Ta=1 x y\n" ∧
      OPLOutput.node_text [] { sample_point with location := none } =
        lit "n1 v1 dV c1 t2014-01-01T00:00:00Z i1 uu x y Ta=1\n" ∧
      OPLOutputBlock.write_location [] (some { x := 0, y := 0 }) 'x' 'y' =
        [] ++ lit " x" ++ fmt_7f 0 ++ lit " y" ++ fmt_7f 0 ∧
      fmt_7f 0 = lit "0.0000000" :=
  ⟨by decide, by decide,
   (absent_location_bare_markers [] sample_point { x := 0, y := 0 } (by decide)).2.2.1,
   by decide⟩

/-! ### C12: the line of a Changeset -/

theorem block_changeset_eq (m_out : List Byte) (c : Changeset)
    (h : (Entity.changeset c).in_range) :
    OPLOutputBlock.changeset m_out c = m_out ++ spec_changeset_line block_esc c := by
  obtain ⟨h1, h2, h3, h4, h5⟩ := h
  have l1 := fmt_d_length_int32 _ h1
  have l2 := fmt_d_length_int32 _ h2
  have l3 := fmt_d_length_int32 _ h3
  have e1 : lit "c" = [ch 'c'] := by decide
  have e2 : lit " k" = [ch ' '] ++ [ch 'k'] := by decide
  have e3 : lit " s" = [ch ' '] ++ [ch 's'] := by decide
  have e4 : lit " e" = [ch ' '] ++ [ch 'e'] := by decide
  have e5 : lit " i" = [ch ' '] ++ [ch 'i'] := by decide
  have e6 : lit " u" = [ch ' '] ++ [ch 'u'] := by decide
  have e7 : lit " T" = [ch ' '] ++ [ch 'T'] := by decide
  have hT : spec_tag_section block_esc c.tags = [ch 'T'] ++ spec_tag_list block_esc c.tags := rfl
  have hlen1 : (lit "c" ++ fmt_d c.id ++ lit " k" ++ fmt_d c.num_changes ++ lit " s").length
      ≤ 99 := by
    simp only [List.length_append, e1, e2, e3, List.length_cons, List.length_nil]
    omega
  have hlen2 : (lit " i" ++ fmt_d c.uid ++ lit " u").length ≤ 99 := by
    simp only [List.length_append, e5, e6, List.length_cons, List.length_nil]
    omega
  simp only [OPLOutputBlock.changeset]
  rw [loop_first_true OPLOutputBlock.tag_body
    (fun t => block_esc t.key ++ [ch '='] ++ block_esc t.value) c.tags
    (fun t _ m => block_tag_body_eq m t)]
  rw [block_write_location_eq _ _ h5 'X' 'Y', block_write_location_eq _ _ h4 'x' 'y',
    block_append_acc, block_output_formatted_eq _ _ hlen2, block_output_formatted_eq _ _ hlen1]
  simp only [spec_changeset_line, hT, spec_tag_list, e1, e2, e3, e4, e5, e6, e7]
  simp only [← List.append_assoc]

/-- C12.  For every Changeset (numbers within their machine types) `OPLOutputBlock::changeset`
produces `c`+id, `k`+num_changes, `s`+created timestamp, `e`+closed timestamp, `i`+uid,
`u`+escaped user, `x`/`y` for the bottom-left corner, `X`/`Y` for the top-right corner and the `T`
tag section, in this order, separated by single spaces and terminated by one newline; an absent
corner renders as the bare markers `x y` respectively `X Y`. -/
theorem block_changeset_line_shape (m_out : List Byte) (c : Changeset)
    (h : (Entity.changeset c).in_range) :
    OPLOutputBlock.changeset m_out c =
        m_out ++ ([ch 'c'] ++ fmt_d c.id ++ [ch ' '] ++ [ch 'k'] ++ fmt_d c.num_changes ++
          [ch ' '] ++ [ch 's'] ++ to_iso c.created_at ++ [ch ' '] ++ [ch 'e'] ++
          to_iso c.closed_at ++ [ch ' '] ++ [ch 'i'] ++ fmt_d c.uid ++ [ch ' '] ++ [ch 'u'] ++
          block_esc c.user ++ [ch ' '] ++ spec_corner 'x' 'y' c.bottom_left ++ [ch ' '] ++
          spec_corner 'X' 'Y' c.top_right ++ [ch ' '] ++ spec_tag_section block_esc c.tags ++
          [ch '\n']) ∧
      spec_corner 'x' 'y' none = lit "x y" ∧ spec_corner 'X' 'Y' none = lit "X Y" ∧
      (∀ l : Location, spec_corner 'X' 'Y' (some l) =
        [ch 'X'] ++ fmt_7f l.x ++ [ch ' '] ++ [ch 'Y'] ++ fmt_7f l.y) := by
  refine ⟨?_, by decide, by decide, fun l => rfl⟩
  rw [block_changeset_eq m_out c h]
  rfl

/-- C12, witness: the statement at the sample Changeset, whose top-right corner is absent. -/
theorem block_changeset_line_shape_witness :
    OPLOutputBlock.changeset [] sample_changeset =
        lit "c7 k3 s2014-01-01T00:00:00Z e2014-01-01T01:00:00Z i1 uu x-0.0000005 y2.0000000 X Y Ta=1\n" ∧
      OPLOutputBlock.changeset [] sample_changeset =
        [] ++ spec_changeset_line block_esc sample_changeset :=
  ⟨by decide, (block_changeset_line_shape [] sample_changeset (by decide)).1⟩

/-! ### C13: a block is encoded line by line -/

theorem block_write_meta_acc (m_out : List Byte) (o : OSMObject) :
    OPLOutputBlock.write_meta m_out o = m_out ++ OPLOutputBlock.write_meta [] o := by
  have hl := loop_first_true OPLOutputBlock.tag_body
    (fun t => block_esc t.key ++ [ch '='] ++ block_esc t.value) o.tags
    (fun t _ m => block_tag_body_eq m t)
  simp only [OPLOutputBlock.write_meta, hl, block_append_acc o.user,
    OPLOutputBlock.output_formatted]
  simp only [List.append_assoc, List.nil_append]

theorem block_write_location_acc (m_out : List Byte) (location : Option Location) (x y : Char) :
    OPLOutputBlock.write_location m_out location x y =
      m_out ++ OPLOutputBlock.write_location [] location x y := by
  cases location with
  | none => simp [OPLOutputBlock.write_location]
  | some l => simp [OPLOutputBlock.write_location, OPLOutputBlock.output_formatted]

theorem block_node_acc (m_out : List Byte) (n : Node) :
    OPLOutputBlock.node m_out n = m_out ++ OPLOutputBlock.node [] n := by
  simp only [OPLOutputBlock.node]
  rw [block_write_location_acc (OPLOutputBlock.write_meta (m_out ++ [ch 'n']) _),
    block_write_meta_acc (m_out ++ [ch 'n']),
    block_write_location_acc (OPLOutputBlock.write_meta ([] ++ [ch 'n']) _),
    block_write_meta_acc ([] ++ [ch 'n'])]
  simp only [List.append_assoc, List.nil_append]

theorem block_way_acc (m_out : List Byte) (w : Way) :
    OPLOutputBlock.way m_out w = m_out ++ OPLOutputBlock.way [] w := by
  have hl := loop_first_true
    (fun m_out ref => OPLOutputBlock.output_formatted m_out (lit "n" ++ fmt_d ref))
    (fun ref => snprintf OPLOutputBlock.tmp_buffer_size (lit "n" ++ fmt_d ref)) w.nodes
    (fun _ _ _ => rfl)
  simp only [OPLOutputBlock.way, hl]
  rw [block_write_meta_acc (m_out ++ [ch 'w']), block_write_meta_acc ([] ++ [ch 'w'])]
  simp only [List.append_assoc, List.nil_append]

theorem block_relation_acc (m_out : List Byte) (r : Relation) :
    OPLOutputBlock.relation m_out r = m_out ++ OPLOutputBlock.relation [] r := by
  have hl := loop_first_true
    (fun m_out (member : RelationMember) =>
      OPLOutputBlock.output_formatted (m_out ++ [ch (item_type_to_char member.type)])
        (fmt_d member.ref ++ lit "@") ++ c_str member.role)
    (fun member => [ch (item_type_to_char member.type)] ++
      snprintf OPLOutputBlock.tmp_buffer_size (fmt_d member.ref ++ lit "@") ++
      c_str member.role) r.members
    (fun _ _ _ => by simp only [OPLOutputBlock.output_formatted, List.append_assoc])
  simp only [OPLOutputBlock.relation, hl]
  rw [block_write_meta_acc (m_out ++ [ch 'r']), block_write_meta_acc ([] ++ [ch 'r'])]
  simp only [List.append_assoc, List.nil_append]

theorem block_changeset_acc (m_out : List Byte) (c : Changeset) :
    OPLOutputBlock.changeset m_out c = m_out ++ OPLOutputBlock.changeset [] c := by
  have hl := loop_first_true OPLOutputBlock.tag_body
    (fun t => block_esc t.key ++ [ch '='] ++ block_esc t.value) c.tags
    (fun t _ m => block_tag_body_eq m t)
  have hx := fun m => block_write_location_acc m c.bottom_left 'x' 'y'
  have hy := fun m => block_write_location_acc m c.top_right 'X' 'Y'
  simp only [OPLOutputBlock.changeset, hl]
  rw [hy, hx, block_append_acc c.user]
  conv_rhs => rw [hy, hx, block_append_acc c.user]
  simp only [OPLOutputBlock.output_formatted, List.append_assoc, List.nil_append]

theorem block_apply_acc (es : List Entity) : ∀ m_out : List Byte,
    OPLOutputBlock.apply m_out es = m_out ++ es.flatMap block_line := by
  induction es with
  | nil => intro m_out; simp [OPLOutputBlock.apply]
  | cons e es ih =>
    intro m_out
    cases e with
    | node n =>
      simp only [OPLOutputBlock.apply, List.flatMap_cons, block_line]
      rw [ih, block_node_acc, List.append_assoc]
    | way w =>
      simp only [OPLOutputBlock.apply, List.flatMap_cons, block_line]
      rw [ih, block_way_acc, List.append_assoc]
    | relation r =>
      simp only [OPLOutputBlock.apply, List.flatMap_cons, block_line]
      rw [ih, block_relation_acc, List.append_assoc]
    | changeset c =>
      simp only [OPLOutputBlock.apply, List.flatMap_cons, block_line]
      rw [ih, block_changeset_acc, List.append_assoc]

theorem block_call_eq (block : List Entity) :
    (OPLOutputBlock.call block []).1 = block.flatMap block_line := by
  simp only [OPLOutputBlock.call]
  rw [block_apply_acc, List.nil_append]

/-- C13.  For every block `OPLOutputBlock::operator()` returns the concatenation, in block order,
of the line of each record; the empty block encodes to the empty string, the encoding of the
concatenation of two blocks is the concatenation of their encodings, and the accumulator is empty
again after the call, so a repeated call returns the same string. -/
theorem block_encoding_concatenates (block block2 : List Entity) (m_out : List Byte) :
    (OPLOutputBlock.call block []).1 = block.flatMap block_line ∧
      (OPLOutputBlock.call [] []).1 = [] ∧
      (OPLOutputBlock.call (block ++ block2) []).1 =
        (OPLOutputBlock.call block []).1 ++ (OPLOutputBlock.call block2 []).1 ∧
      (OPLOutputBlock.call block m_out).2 = [] ∧
      (OPLOutputBlock.call block (OPLOutputBlock.call block []).2).1 =
        (OPLOutputBlock.call block []).1 := by
  refine ⟨block_call_eq block, rfl, ?_, rfl, rfl⟩
  rw [block_call_eq, block_call_eq, block_call_eq, List.flatMap_append]

/-! ### C14, C15 and C16: accumulator and sink of the direct writer -/

theorem direct_write_meta_acc (m_out : List Byte) (o : OSMObject) :
    OPLOutput.write_meta m_out o = m_out ++ OPLOutput.write_meta [] o := by
  simp only [OPLOutput.write_meta, direct_append_acc o.user]
  simp only [List.append_assoc, List.nil_append]

theorem direct_node_text_acc (m_out : List Byte) (n : Node) :
    OPLOutput.node_text m_out n = m_out ++ OPLOutput.node_text [] n := by
  rw [direct_node_text_unfold, direct_node_text_unfold, direct_write_tags_eq,
    direct_write_tags_eq, direct_write_meta_acc (m_out ++ [ch 'n']),
    direct_write_meta_acc ([] ++ [ch 'n'])]
  cases n.location with
  | none => simp only [List.append_assoc, List.nil_append]
  | some l => simp only [List.append_assoc, List.nil_append]

theorem direct_way_text_acc (m_out : List Byte) (w : Way) :
    OPLOutput.way_text m_out w = m_out ++ OPLOutput.way_text [] w := by
  have hl := loop_first_true
    (fun m_out wn => m_out ++ snprintf OPLOutput.tmp_buffer_size (lit "n" ++ fmt_d wn))
    (fun wn => snprintf OPLOutput.tmp_buffer_size (lit "n" ++ fmt_d wn)) w.nodes
    (fun _ _ _ => rfl)
  simp only [OPLOutput.way_text, hl, direct_write_tags_eq]
  rw [direct_write_meta_acc (m_out ++ [ch 'w']), direct_write_meta_acc ([] ++ [ch 'w'])]
  simp only [List.append_assoc, List.nil_append]

theorem direct_relation_text_acc (m_out : List Byte) (r : Relation) :
    OPLOutput.relation_text m_out r = m_out ++ OPLOutput.relation_text [] r := by
  have hl := loop_first_true
    (fun m_out (member : RelationMember) =>
      m_out ++ [ch (item_type_to_char member.type)] ++
        snprintf OPLOutput.tmp_buffer_size (fmt_d member.ref ++ lit "@") ++ c_str member.role)
    (fun member => [ch (item_type_to_char member.type)] ++
      snprintf OPLOutput.tmp_buffer_size (fmt_d member.ref ++ lit "@") ++
      c_str member.role) r.members
    (fun _ _ _ => by simp only [List.append_assoc])
  simp only [OPLOutput.relation_text, hl, direct_write_tags_eq]
  rw [direct_write_meta_acc (m_out ++ [ch 'r']), direct_write_meta_acc ([] ++ [ch 'r'])]
  simp only [List.append_assoc, List.nil_append]

theorem direct_handle_collection_delivered (es : List Entity) : ∀ s : OPLOutput.State,
    (OPLOutput.handle_collection s es).fd ++ (OPLOutput.handle_collection s es).m_out =
      s.fd ++ s.m_out ++ es.flatMap direct_line := by
  induction es with
  | nil => intro s; simp [OPLOutput.handle_collection]
  | cons e es ih =>
    intro s
    cases e with
    | node n =>
      simp only [OPLOutput.handle_collection, List.flatMap_cons, direct_line]
      rw [ih, OPLOutput.node, direct_flush_if_full_total, direct_node_text_acc]
      simp only [List.append_assoc]
    | way w =>
      simp only [OPLOutput.handle_collection, List.flatMap_cons, direct_line]
      rw [ih, OPLOutput.way, direct_flush_if_full_total, direct_way_text_acc]
      simp only [List.append_assoc]
    | relation r =>
      simp only [OPLOutput.handle_collection, List.flatMap_cons, direct_line]
      rw [ih, OPLOutput.relation, direct_flush_if_full_total, direct_relation_text_acc]
      simp only [List.append_assoc]
    | changeset c =>
      simp only [OPLOutput.handle_collection, List.flatMap_cons, direct_line, List.nil_append]
      rw [ih]

/-- C14.  For every sequence of records visited from a fresh direct writer (Points, Ways and
Relations; a Changeset has no callback and adds no line), after each call the bytes already
written to the sink followed by the accumulator's content are the concatenation, in visit order,
of the lines of the records visited so far; after `close` the sink holds exactly the
concatenation of all lines and the accumulator is empty. -/
theorem direct_delivers_in_order (es : List Entity) :
    (∀ k : Nat,
        (OPLOutput.handle_collection OPLOutput.init (es.take k)).fd ++
            (OPLOutput.handle_collection OPLOutput.init (es.take k)).m_out =
          (es.take k).flatMap direct_line) ∧
      (OPLOutput.handle_collection OPLOutput.init es).fd ++
          (OPLOutput.handle_collection OPLOutput.init es).m_out = es.flatMap direct_line ∧
      (OPLOutput.close (OPLOutput.handle_collection OPLOutput.init es)).fd =
        es.flatMap direct_line ∧
      (OPLOutput.close (OPLOutput.handle_collection OPLOutput.init es)).m_out = [] := by
  have h := direct_handle_collection_delivered es OPLOutput.init
  refine ⟨fun k => ?_, ?_, ?_, rfl⟩
  · rw [direct_handle_collection_delivered]
    simp [OPLOutput.init]
  · rw [h]
    simp [OPLOutput.init]
  · simp only [OPLOutput.close, OPLOutput.flush]
    rw [h]
    simp [OPLOutput.init]

theorem direct_flush_if_full_le (s : OPLOutput.State) :
    (OPLOutput.flush_if_full s).m_out.length ≤ 1048576 := by
  unfold OPLOutput.flush_if_full
  split
  · simp [OPLOutput.flush]
  · rename_i h
    simpa [OPLOutput.output_buffer_size] using h

theorem direct_flush_if_full_eq (fd m_out : List Byte) :
    OPLOutput.flush_if_full { m_out := m_out, fd := fd } =
      if m_out.length > 1048576 then { m_out := [], fd := fd ++ m_out }
      else { m_out := m_out, fd := fd } := by
  unfold OPLOutput.flush_if_full
  simp [OPLOutput.flush, OPLOutput.output_buffer_size]

theorem direct_handle_collection_le (es : List Entity) : ∀ s : OPLOutput.State,
    s.m_out.length ≤ 1048576 → (OPLOutput.handle_collection s es).m_out.length ≤ 1048576 := by
  induction es with
  | nil => intro s hs; simpa [OPLOutput.handle_collection] using hs
  | cons e es ih =>
    intro s hs
    cases e with
    | node n => exact ih _ (direct_flush_if_full_le _)
    | way w => exact ih _ (direct_flush_if_full_le _)
    | relation r => exact ih _ (direct_flush_if_full_le _)
    | changeset c => exact ih _ hs

/-- C15.  `node`, `way` and `relation` flush exactly when the accumulator, after the record's line
is appended, holds strictly more than 1,048,576 bytes, and the flush moves the whole accumulator
to the sink and empties it; so after each of these calls, and after every sequence of them from a
fresh writer, the accumulator holds at most 1,048,576 bytes. -/
theorem direct_flush_threshold (s : OPLOutput.State) (n : Node) (w : Way) (r : Relation)
    (es : List Entity) :
    OPLOutput.output_buffer_size = 1048576 ∧
      (OPLOutput.node s n =
        if (OPLOutput.node_text s.m_out n).length > 1048576 then
          { m_out := [], fd := s.fd ++ OPLOutput.node_text s.m_out n }
        else { m_out := OPLOutput.node_text s.m_out n, fd := s.fd }) ∧
      (OPLOutput.way s w =
        if (OPLOutput.way_text s.m_out w).length > 1048576 then
          { m_out := [], fd := s.fd ++ OPLOutput.way_text s.m_out w }
        else { m_out := OPLOutput.way_text s.m_out w, fd := s.fd }) ∧
      (OPLOutput.relation s r =
        if (OPLOutput.relation_text s.m_out r).length > 1048576 then
          { m_out := [], fd := s.fd ++ OPLOutput.relation_text s.m_out r }
        else { m_out := OPLOutput.relation_text s.m_out r, fd := s.fd }) ∧
      (OPLOutput.node s n).m_out.length ≤ 1048576 ∧
      (OPLOutput.way s w).m_out.length ≤ 1048576 ∧
      (OPLOutput.relation s r).m_out.length ≤ 1048576 ∧
      (OPLOutput.handle_collection OPLOutput.init es).m_out.length ≤ 1048576 := by
  refine ⟨rfl, direct_flush_if_full_eq _ _, direct_flush_if_full_eq _ _,
    direct_flush_if_full_eq _ _, direct_flush_if_full_le _, direct_flush_if_full_le _,
    direct_flush_if_full_le _, direct_handle_collection_le es _ (by simp [OPLOutput.init])⟩

/-- C16.  For every writer state, calling `close` twice in a row leaves the sink with exactly the
bytes one `close` leaves (the second call finds the accumulator empty and hands no byte to the
sink), and the accumulator is empty after either. -/
theorem direct_close_idempotent (s : OPLOutput.State) :
    OPLOutput.close (OPLOutput.close s) = OPLOutput.close s ∧
      (OPLOutput.close (OPLOutput.close s)).fd = (OPLOutput.close s).fd ∧
      (OPLOutput.close s).fd = s.fd ++ s.m_out ∧
      (OPLOutput.close s).m_out = [] ∧ (OPLOutput.close (OPLOutput.close s)).m_out = [] := by
  simp [OPLOutput.close, OPLOutput.flush]

/-! ### C17: calls after close -/

/-- C17, counterexample.  After `close` on a fresh direct writer the call `node` is carried out
and changes the accumulator, and after `close` on a fresh pipeline `write_buffer` pushes a new
Pending Result behind the sentinel. -/
theorem write_after_close_succeeds :
    OPLOutput.node (OPLOutput.close OPLOutput.init) sample_point ≠
        OPLOutput.close OPLOutput.init ∧
      (OPLOutput.node (OPLOutput.close OPLOutput.init) sample_point).m_out =
        lit "n1 v1 dV c1 t2014-01-01T00:00:00Z i1 uu x1.0000000 y2.0000000 Ta=1\n" ∧
      (OPLOutputFormat.run OPLOutputFormat.init
          [.close, .write_buffer [.node sample_point]]).map
        (fun s => s.m_output_queue.map (fun p => p.ready)) = some [true, false] := by
  decide

/-- C17, amended.  Neither class records that it was closed, so a write call after `close` is
not rejected: `OPLOutput::node/way/relation` append the record's line to the emptied accumulator
(and flush past the threshold) as on an open writer, keeping the bytes already in the sink, and
`OPLOutputFormat::write_buffer` pushes the new Pending Result behind the sentinel and leaves the
sink unchanged. -/
theorem write_after_close_appends (s : OPLOutput.State) (n : Node) (w : Way) (r : Relation)
    (p : OPLOutputFormat.State) (buffer : List Entity) :
    (OPLOutput.node (OPLOutput.close s) n).fd ++ (OPLOutput.node (OPLOutput.close s) n).m_out =
        s.fd ++ s.m_out ++ OPLOutput.node_text [] n ∧
      (OPLOutput.way (OPLOutput.close s) w).fd ++ (OPLOutput.way (OPLOutput.close s) w).m_out =
        s.fd ++ s.m_out ++ OPLOutput.way_text [] w ∧
      (OPLOutput.relation (OPLOutput.close s) r).fd ++
          (OPLOutput.relation (OPLOutput.close s) r).m_out =
        s.fd ++ s.m_out ++ OPLOutput.relation_text [] r ∧
      OPLOutputFormat.step (OPLOutputFormat.close p) (.write_buffer buffer) =
        (if p.in_write_buffer then none
         else some (OPLOutputFormat.write_buffer_push (OPLOutputFormat.close p) buffer)) ∧
      (OPLOutputFormat.write_buffer_push (OPLOutputFormat.close p) buffer).m_output_queue =
        p.m_output_queue ++ [{ text := [], ready := true }, OPLOutputFormat.submit buffer] ∧
      (OPLOutputFormat.write_buffer_push (OPLOutputFormat.close p) buffer).sink = p.sink := by
  refine ⟨?_, ?_, ?_, rfl, ?_, rfl⟩
  · rw [OPLOutput.node, direct_flush_if_full_total]
    simp [OPLOutput.close, OPLOutput.flush]
  · rw [OPLOutput.way, direct_flush_if_full_total]
    simp [OPLOutput.close, OPLOutput.flush]
  · rw [OPLOutput.relation, direct_flush_if_full_total]
    simp [OPLOutput.close, OPLOutput.flush]
  · simp [OPLOutputFormat.write_buffer_push, OPLOutputFormat.close]

/-! ### The steps of the pipeline -/

theorem pipeline_worker_done_spec (s s2 : OPLOutputFormat.State) (i : Nat)
    (h : OPLOutputFormat.worker_done s i = some s2) :
    ∃ p, s.m_output_queue[i]? = some p ∧
      s2 = { s with m_output_queue := s.m_output_queue.set i { p with ready := true } } := by
  unfold OPLOutputFormat.worker_done at h
  cases hp : s.m_output_queue[i]? with
  | none => simp [hp] at h
  | some p =>
    simp only [hp] at h
    split at h
    · simp at h
    · exact ⟨p, rfl, (Option.some.inj h).symm⟩

theorem pipeline_drain_spec (s s2 : OPLOutputFormat.State) (h : OPLOutputFormat.drain s = some s2) :
    ∃ p rest, s.m_output_queue = p :: rest ∧
      s2 = { s with m_output_queue := rest, sink := s.sink ++ p.text,
                    drain_stopped := p.text.isEmpty } := by
  unfold OPLOutputFormat.drain at h
  split at h
  · simp at h
  · cases hq : s.m_output_queue with
    | nil => simp [hq] at h
    | cons p rest =>
      simp only [hq] at h
      split at h
      · exact ⟨p, rest, rfl, (Option.some.inj h).symm⟩
      · simp at h

theorem pipeline_return_spec (s s2 : OPLOutputFormat.State)
    (h : OPLOutputFormat.write_buffer_return s = some s2) :
    s.m_output_queue.length ≤ 10 ∧ s2 = { s with in_write_buffer := false } := by
  unfold OPLOutputFormat.write_buffer_return at h
  split at h
  · rename_i hc
    simp only [OPLOutputFormat.write_buffer_waits, Bool.and_eq_true, Bool.not_eq_true',
      decide_eq_false_iff_not, not_lt] at hc
    exact ⟨hc.2, (Option.some.inj h).symm⟩
  · simp at h

theorem submitted_cons (a : OPLOutputFormat.Step) (rest : List OPLOutputFormat.Step) :
    OPLOutputFormat.submitted (a :: rest) =
      OPLOutputFormat.submitted [a] ++ OPLOutputFormat.submitted rest := by
  cases a <;> simp [OPLOutputFormat.submitted]

theorem pipeline_step_bound (s s2 : OPLOutputFormat.State) (a : OPLOutputFormat.Step)
    (hc : OPLOutputFormat.closes [a] = 0) (h : OPLOutputFormat.step s a = some s2)
    (hinv : s.m_output_queue.length ≤ 11 ∧
      (s.in_write_buffer = false → s.m_output_queue.length ≤ 10)) :
    s2.m_output_queue.length ≤ 11 ∧
      (s2.in_write_buffer = false → s2.m_output_queue.length ≤ 10) := by
  obtain ⟨h11, h10⟩ := hinv
  cases a with
  | write_buffer buffer =>
    simp only [OPLOutputFormat.step] at h
    cases hf : s.in_write_buffer with
    | true => simp [hf] at h
    | false =>
      simp only [hf, Bool.false_eq_true, if_false, Option.some.injEq] at h
      subst h
      have := h10 hf
      simp only [OPLOutputFormat.write_buffer_push, List.length_append, List.length_cons,
        List.length_nil]
      constructor
      · omega
      · intro hcontra; simp at hcontra
  | write_buffer_return =>
    obtain ⟨hle, h2⟩ := pipeline_return_spec s s2 h
    subst h2
    exact ⟨h11, fun _ => hle⟩
  | close => simp [OPLOutputFormat.closes] at hc
  | worker_done i =>
    obtain ⟨p, _, h2⟩ := pipeline_worker_done_spec s s2 i h
    subst h2
    simpa using ⟨h11, h10⟩
  | drain =>
    obtain ⟨p, rest, hq, h2⟩ := pipeline_drain_spec s s2 h
    subst h2
    rw [hq] at h11 h10
    simp only [List.length_cons] at h11 h10
    exact ⟨by simp only []; omega, fun hf => by have := h10 hf; simp only []; omega⟩

theorem closes_cons (a : OPLOutputFormat.Step) (rest : List OPLOutputFormat.Step) :
    OPLOutputFormat.closes (a :: rest) =
      OPLOutputFormat.closes [a] + OPLOutputFormat.closes rest := by
  cases a <;> simp [OPLOutputFormat.closes]; omega

theorem pipeline_run_bound (steps : List OPLOutputFormat.Step) :
    ∀ s s2 : OPLOutputFormat.State, OPLOutputFormat.closes steps = 0 →
      OPLOutputFormat.run s steps = some s2 →
      (s.m_output_queue.length ≤ 11 ∧
        (s.in_write_buffer = false → s.m_output_queue.length ≤ 10)) →
      s2.m_output_queue.length ≤ 11 ∧
        (s2.in_write_buffer = false → s2.m_output_queue.length ≤ 10) := by
  induction steps with
  | nil =>
    intro s s2 _ h hinv
    simp only [OPLOutputFormat.run, Option.some.injEq] at h
    subst h
    exact hinv
  | cons a rest ih =>
    intro s s2 hc h hinv
    rw [closes_cons a rest] at hc
    simp only [OPLOutputFormat.run] at h
    cases hs : OPLOutputFormat.step s a with
    | none => simp [hs] at h
    | some s1 =>
      simp only [hs] at h
      exact ih s1 s2 (by omega) h (pipeline_step_bound s s1 a (by omega) hs hinv)

/-! ### C18: the backpressure bound -/

/-- C18, counterexample.  Eleven `write_buffer` calls with a block of the sample Point, the first
ten returned and no drain step, are possible and leave 11 Pending Results in the queue. -/
theorem queue_reaches_eleven :
    (OPLOutputFormat.run OPLOutputFormat.init
        (OPLOutputFormat.eleven_submissions [.node sample_point])).map
      (fun s => (s.m_output_queue.length, s.in_write_buffer)) = some (11, true) := by
  decide

/-- C18, amended.  In every state the pipeline reaches by `write_buffer` pushing a Pending Result
and then waiting, `write_buffer` returning, pool workers finishing and the drain removing the
oldest Pending Result (one caller, no `close`), the queue never holds more than 11 Pending
Results, and at most 10 whenever the caller is not inside `write_buffer`; a new submission is
queued only when the queue depth is at or below 10. -/
theorem queue_bound (steps : List OPLOutputFormat.Step) (s : OPLOutputFormat.State)
    (hc : OPLOutputFormat.closes steps = 0)
    (hrun : OPLOutputFormat.run OPLOutputFormat.init steps = some s) :
    s.m_output_queue.length ≤ 11 ∧
      (s.in_write_buffer = false → s.m_output_queue.length ≤ 10) ∧
      (∀ (buffer : List Entity) (s2 : OPLOutputFormat.State),
        OPLOutputFormat.step s (.write_buffer buffer) = some s2 →
          s.m_output_queue.length ≤ 10 ∧
            s2.m_output_queue.length = s.m_output_queue.length + 1) := by
  have hinv := pipeline_run_bound steps OPLOutputFormat.init s hc hrun
    (by simp [OPLOutputFormat.init])
  refine ⟨hinv.1, hinv.2, ?_⟩
  intro buffer s2 h
  simp only [OPLOutputFormat.step] at h
  cases hf : s.in_write_buffer with
  | true => simp [hf] at h
  | false =>
    simp only [hf, Bool.false_eq_true, if_false, Option.some.injEq] at h
    subst h
    exact ⟨hinv.2 hf, by simp [OPLOutputFormat.write_buffer_push]⟩

/-- C18, witness: the amended bound at the state after one returned `write_buffer` call. -/
theorem queue_bound_witness :
    OPLOutputFormat.run OPLOutputFormat.init
        [.write_buffer [.node sample_point], .write_buffer_return] =
      some { m_output_queue := [OPLOutputFormat.submit [.node sample_point]], sink := [],
             in_write_buffer := false } ∧
      [OPLOutputFormat.submit [.node sample_point]].length ≤ 11 :=
  ⟨by decide,
   (queue_bound [.write_buffer [.node sample_point], .write_buffer_return]
      { m_output_queue := [OPLOutputFormat.submit [.node sample_point]], sink := [],
        in_write_buffer := false } (by decide) (by decide)).1⟩

/-! ### C20: the sentinel of close -/

theorem drains_cons (a : OPLOutputFormat.Step) (rest : List OPLOutputFormat.Step) :
    OPLOutputFormat.drains (a :: rest) =
      OPLOutputFormat.drains [a] + OPLOutputFormat.drains rest := by
  cases a <;> simp [OPLOutputFormat.drains]; omega

theorem pipeline_step_count (s s2 : OPLOutputFormat.State) (a : OPLOutputFormat.Step)
    (h : OPLOutputFormat.step s a = some s2) :
    s2.m_output_queue.length + OPLOutputFormat.drains [a] =
      s.m_output_queue.length + (OPLOutputFormat.submitted [a]).length +
        OPLOutputFormat.closes [a] := by
  cases a with
  | write_buffer buffer =>
    simp only [OPLOutputFormat.step] at h
    split at h
    · simp at h
    · have h2 := (Option.some.inj h).symm
      subst h2
      simp [OPLOutputFormat.write_buffer_push, OPLOutputFormat.submitted,
        OPLOutputFormat.closes, OPLOutputFormat.drains]
  | write_buffer_return =>
    obtain ⟨_, h2⟩ := pipeline_return_spec s s2 h
    subst h2
    simp [OPLOutputFormat.submitted, OPLOutputFormat.closes, OPLOutputFormat.drains]
  | close =>
    simp only [OPLOutputFormat.step] at h
    split at h
    · simp at h
    · have h2 := (Option.some.inj h).symm
      subst h2
      simp [OPLOutputFormat.close, OPLOutputFormat.submitted, OPLOutputFormat.closes,
        OPLOutputFormat.drains]
  | worker_done i =>
    obtain ⟨p, _, h2⟩ := pipeline_worker_done_spec s s2 i h
    subst h2
    simp [OPLOutputFormat.submitted, OPLOutputFormat.closes, OPLOutputFormat.drains]
  | drain =>
    obtain ⟨p, rest, hq, h2⟩ := pipeline_drain_spec s s2 h
    subst h2
    simp [hq, OPLOutputFormat.submitted, OPLOutputFormat.closes, OPLOutputFormat.drains]

theorem pipeline_run_count (steps : List OPLOutputFormat.Step) :
    ∀ s s2 : OPLOutputFormat.State, OPLOutputFormat.run s steps = some s2 →
      s2.m_output_queue.length + OPLOutputFormat.drains steps =
        s.m_output_queue.length + (OPLOutputFormat.submitted steps).length +
          OPLOutputFormat.closes steps := by
  induction steps with
  | nil =>
    intro s s2 h
    simp only [OPLOutputFormat.run, Option.some.injEq] at h
    subst h
    simp [OPLOutputFormat.submitted, OPLOutputFormat.closes, OPLOutputFormat.drains]
  | cons a rest ih =>
    intro s s2 h
    simp only [OPLOutputFormat.run] at h
    cases hs : OPLOutputFormat.step s a with
    | none => simp [hs] at h
    | some s1 =>
      simp only [hs] at h
      have h1 := ih s1 s2 h
      have h2 := pipeline_step_count s s1 a hs
      rw [submitted_cons a rest, closes_cons a rest, drains_cons a rest, List.length_append]
      omega

theorem pipeline_run_append (steps1 steps2 : List OPLOutputFormat.Step) :
    ∀ s : OPLOutputFormat.State,
      OPLOutputFormat.run s (steps1 ++ steps2) =
        (OPLOutputFormat.run s steps1).bind (fun s1 => OPLOutputFormat.run s1 steps2) := by
  induction steps1 with
  | nil => intro s; simp [OPLOutputFormat.run]
  | cons a rest ih =>
    intro s
    simp only [List.cons_append, OPLOutputFormat.run]
    cases OPLOutputFormat.step s a with
    | none => simp
    | some s1 => simp [ih s1]

theorem pipeline_run_close_last (steps : List OPLOutputFormat.Step) (s : OPLOutputFormat.State)
    (hrun : OPLOutputFormat.run OPLOutputFormat.init (steps ++ [.close]) = some s) :
    ∃ s1, OPLOutputFormat.run OPLOutputFormat.init steps = some s1 ∧
      s = OPLOutputFormat.close s1 := by
  rw [pipeline_run_append] at hrun
  cases h1 : OPLOutputFormat.run OPLOutputFormat.init steps with
  | none => simp [h1] at hrun
  | some s1 =>
    refine ⟨s1, rfl, ?_⟩
    simp only [h1, Option.some_bind, OPLOutputFormat.run, OPLOutputFormat.step] at hrun
    cases hf : s1.in_write_buffer with
    | true => simp [hf] at hrun
    | false =>
      simp only [hf, Bool.false_eq_true, if_false, Option.some.injEq] at hrun
      exact hrun.symm

/-- C20.  `OPLOutputFormat::close` appends exactly one Pending Result at the tail of the queue,
resolved to the empty string, and leaves every Pending Result queued before, its position and the
sink unchanged; so after `n` calls of `write_buffer` and then one `close`, with no drain step and
no other `close` in between, the queue holds `n + 1` Pending Results and the last of them is
resolved to the empty text. -/
theorem close_pushes_sentinel (p : OPLOutputFormat.State) (steps : List OPLOutputFormat.Step)
    (s : OPLOutputFormat.State) (hd : OPLOutputFormat.drains steps = 0)
    (hc : OPLOutputFormat.closes steps = 0)
    (hrun : OPLOutputFormat.run OPLOutputFormat.init (steps ++ [.close]) = some s) :
    (OPLOutputFormat.close p).m_output_queue =
        p.m_output_queue ++ [{ text := [], ready := true }] ∧
      (OPLOutputFormat.close p).sink = p.sink ∧
      (OPLOutputFormat.close p).m_output_queue.length = p.m_output_queue.length + 1 ∧
      (∀ i : Nat, i < p.m_output_queue.length →
        (OPLOutputFormat.close p).m_output_queue[i]? = p.m_output_queue[i]?) ∧
      s.m_output_queue.length = (OPLOutputFormat.submitted steps).length + 1 ∧
      s.m_output_queue.getLast? = some { text := [], ready := true } := by
  obtain ⟨s1, h1, hs⟩ := pipeline_run_close_last steps s hrun
  have hcount := pipeline_run_count steps OPLOutputFormat.init s1 h1
  simp only [OPLOutputFormat.init, List.length_nil] at hcount
  subst hs
  refine ⟨rfl, rfl, by simp [OPLOutputFormat.close], ?_, ?_, ?_⟩
  · intro i hi
    simp only [OPLOutputFormat.close]
    rw [List.getElem?_append_left hi]
  · simp only [OPLOutputFormat.close, List.length_append, List.length_cons, List.length_nil]
    omega
  · simp [OPLOutputFormat.close]

/-- C20, witness: two calls of `write_buffer`, then `close`, no drain step. -/
theorem close_pushes_sentinel_witness :
    OPLOutputFormat.run OPLOutputFormat.init
        ([.write_buffer [.node sample_point], .write_buffer_return,
          .write_buffer [.way sample_way], .write_buffer_return] ++ [.close]) =
      some { m_output_queue :=
               [OPLOutputFormat.submit [.node sample_point],
                OPLOutputFormat.submit [.way sample_way], { text := [], ready := true }],
             sink := [], in_write_buffer := false } ∧
      [OPLOutputFormat.submit [.node sample_point], OPLOutputFormat.submit [.way sample_way],
        ({ text := [], ready := true } : OPLOutputFormat.Pending)].length = 2 + 1 :=
  ⟨by decide,
   (close_pushes_sentinel OPLOutputFormat.init
      [.write_buffer [.node sample_point], .write_buffer_return,
       .write_buffer [.way sample_way], .write_buffer_return]
      { m_output_queue :=
          [OPLOutputFormat.submit [.node sample_point],
           OPLOutputFormat.submit [.way sample_way], { text := [], ready := true }],
        sink := [], in_write_buffer := false }
      (by decide) (by decide) (by decide)).2.2.2.2.1⟩

/-! ### C21: no structural character in escaped text -/

theorem char_toNat_lt (c : Char) : c.toNat < 0x110000 := by
  have h := c.valid
  simp only [UInt32.isValidChar, Nat.isValidChar] at h
  simp only [Char.toNat]
  omega

theorem block_esc_cons (c : Char) (t : Text) :
    block_esc (c :: t) = spec_scalar_piece c ++ block_esc t := by
  have hl : (fmt_04x c.toNat).length ≤ 99 := by
    have := fmt_04x_length c.toNat (char_toNat_lt c)
    omega
  unfold spec_scalar_piece
  conv_lhs => unfold block_esc
  simp only [OPLOutputBlock.append_encoded_string, ← spec_allowed_eq]
  split
  · rw [block_append_acc, List.nil_append]
  · rw [block_append_acc, block_output_formatted_eq _ _ hl]
    simp

theorem block_esc_eq_pieces (t : Text) : block_esc t = t.flatMap spec_scalar_piece := by
  induction t with
  | nil => rfl
  | cons c t ih => rw [block_esc_cons, ih, List.flatMap_cons]

theorem spec_allowed_lt (n : Nat) (h : spec_allowed n = true) : n < 1536 := by
  rw [spec_allowed_eq] at h
  simp only [Bool.or_eq_true, Bool.and_eq_true, decide_eq_true_eq] at h
  omega

theorem allowed_ascii_plain : ∀ n : Fin 128, spec_allowed n.val = true →
    spec_structural (Fin.ofNat n.val) = false ∧ ((Fin.ofNat n.val : Byte) == ch '%') = false := by
  decide

set_option maxRecDepth 100000 in
theorem high_byte_plain : ∀ b : Byte, 0x80 ≤ b.val →
    spec_structural b = false ∧ (b == ch '%') = false := by
  decide

theorem allowed_utf8_plain (c : Char) (h : spec_allowed c.toNat = true) :
    ∀ b ∈ utf8_bytes c, spec_structural b = false ∧ (b == ch '%') = false := by
  have hlt := spec_allowed_lt c.toNat h
  intro b hb
  by_cases h1 : c.toNat < 0x80
  · simp only [utf8_bytes, h1, if_true, List.mem_singleton] at hb
    subst hb
    exact allowed_ascii_plain ⟨c.toNat, h1⟩ h
  · have h2 : c.toNat < 0x800 := by omega
    simp only [utf8_bytes, h1, h2, if_true, if_false, List.mem_cons, List.mem_singleton,
      List.not_mem_nil, or_false] at hb
    rcases hb with hb | hb
    · subst hb
      apply high_byte_plain
      show 0x80 ≤ (0xC0 + c.toNat / 64) % 256
      omega
    · subst hb
      apply high_byte_plain
      show 0x80 ≤ (0x80 + c.toNat % 64) % 256
      omega

theorem toDigits_sixteen_plain (n : Nat) : ∀ c ∈ Nat.toDigits 16 n,
    spec_structural (ch c) = false ∧ (ch c == ch '%') = false := by
  have key : ∀ k : Fin 16, spec_structural (ch (Nat.digitChar k.val)) = false ∧
      (ch (Nat.digitChar k.val) == ch '%') = false := by decide
  induction n using Nat.strong_induction_on with
  | _ n ih =>
    by_cases h : n / 16 = 0
    · rw [toDigits_small 16 n h]
      intro c hc
      rw [List.mem_singleton] at hc
      subst hc
      exact key ⟨n % 16, Nat.mod_lt _ (by decide)⟩
    · rw [toDigits_step 16 n (by decide) h]
      intro c hc
      rw [List.mem_append, List.mem_singleton] at hc
      rcases hc with hc | hc
      · exact ih (n / 16) (by omega) c hc
      · subst hc
        exact key ⟨n % 16, Nat.mod_lt _ (by decide)⟩

theorem fmt_04x_plain (n : Nat) : ∀ b ∈ fmt_04x n,
    spec_structural b = false ∧ (b == ch '%') = false := by
  intro b hb
  simp only [fmt_04x, List.mem_map, List.mem_append, List.mem_replicate] at hb
  obtain ⟨c, hc | hc, rfl⟩ := hb
  · rw [hc.2]; decide
  · exact toDigits_sixteen_plain n c hc

theorem spec_scalar_piece_plain (c : Char) : ∀ b ∈ spec_scalar_piece c, spec_structural b = false := by
  intro b hb
  unfold spec_scalar_piece at hb
  split at hb
  · rename_i h
    exact (allowed_utf8_plain c h b hb).1
  · rw [List.mem_cons] at hb
    rcases hb with hb | hb
    · subst hb; decide
    · exact (fmt_04x_plain c.toNat b hb).1

theorem count_percent_zero (l : List Byte) (h : ∀ b ∈ l, (b == ch '%') = false) :
    l.count (ch '%') = 0 := by
  rw [List.count_eq_zero]
  intro hm
  have := h _ hm
  simp at this

theorem spec_scalar_piece_count (c : Char) :
    (spec_scalar_piece c).count (ch '%') = if spec_allowed c.toNat then 0 else 1 := by
  unfold spec_scalar_piece
  split
  · rename_i h
    exact count_percent_zero _ (fun b hb => (allowed_utf8_plain c h b hb).2)
  · rw [List.count_cons, count_percent_zero _ (fun b hb => (fmt_04x_plain c.toNat b hb).2)]
    simp

theorem block_esc_count_percent (t : Text) :
    (block_esc t).count (ch '%') = (t.filter (fun c => !spec_allowed c.toNat)).length := by
  induction t with
  | nil => rfl
  | cons c t ih =>
    rw [block_esc_cons, List.count_append, ih, spec_scalar_piece_count, List.filter_cons]
    cases spec_allowed c.toNat with
    | false => simp; omega
    | true => simp

theorem ascii_allowed_iff : ∀ n : Fin 128, spec_allowed n.val = spec_ascii_verbatim n.val := by
  decide

/-- C21.  For every text the output of `OPLOutputBlock::append_encoded_string` contains no space,
no comma, no `=`, no `@`, no control character (below 0x20, or 0x7f) and no newline; it is the
concatenation of one piece per code point, the UTF-8 bytes of an allow-listed code point, which
hold no `%`, or a `%` followed by hexadecimal digits for any other code point, so every `%` of the
output is the first byte of such an escape; and within ASCII the code points emitted verbatim
are exactly the printable ones 0x21..0x7e other than `%`, `,`, `=` and `@`. -/
theorem block_escape_no_structural (m_out : List Byte) (t : Text) :
    OPLOutputBlock.append_encoded_string m_out t = m_out ++ t.flatMap spec_scalar_piece ∧
      (∀ b ∈ OPLOutputBlock.append_encoded_string [] t, spec_structural b = false) ∧
      ch ' ' ∉ OPLOutputBlock.append_encoded_string [] t ∧
      ch ',' ∉ OPLOutputBlock.append_encoded_string [] t ∧
      ch '=' ∉ OPLOutputBlock.append_encoded_string [] t ∧
      ch '@' ∉ OPLOutputBlock.append_encoded_string [] t ∧
      ch '\n' ∉ OPLOutputBlock.append_encoded_string [] t ∧
      (∀ c : Char, spec_allowed c.toNat = true →
        spec_scalar_piece c = utf8_bytes c ∧ ch '%' ∉ utf8_bytes c) ∧
      (∀ c : Char, spec_allowed c.toNat = false →
        spec_scalar_piece c = ch '%' :: fmt_04x c.toNat ∧ ch '%' ∉ fmt_04x c.toNat) ∧
      (OPLOutputBlock.append_encoded_string [] t).count (ch '%') =
        (t.filter (fun c => !spec_allowed c.toNat)).length ∧
      (∀ c : Char, c.toNat < 128 →
        (OPLOutputBlock.append_encoded_string [] [c] = [Fin.ofNat c.toNat] ↔
          spec_ascii_verbatim c.toNat = true)) := by
  have hplain : ∀ b ∈ OPLOutputBlock.append_encoded_string [] t, spec_structural b = false := by
    intro b hb
    have hb2 : b ∈ block_esc t := hb
    rw [block_esc_eq_pieces, List.mem_flatMap] at hb2
    obtain ⟨c, _, hc⟩ := hb2
    exact spec_scalar_piece_plain c b hc
  have hnot : ∀ b : Byte, spec_structural b = true →
      b ∉ OPLOutputBlock.append_encoded_string [] t := by
    intro b hs hm
    rw [hplain b hm] at hs
    exact Bool.false_ne_true hs
  refine ⟨?_, hplain, hnot _ (by decide), hnot _ (by decide), hnot _ (by decide),
    hnot _ (by decide), hnot _ (by decide), ?_, ?_, block_esc_count_percent t, ?_⟩
  · rw [block_append_acc, block_esc_eq_pieces]
  · intro c h
    refine ⟨by simp [spec_scalar_piece, h], fun hm => ?_⟩
    have := (allowed_utf8_plain c h _ hm).2
    simp at this
  · intro c h
    refine ⟨by simp [spec_scalar_piece, h], fun hm => ?_⟩
    have := (fmt_04x_plain c.toNat _ hm).2
    simp at this
  · intro c hc
    have hpiece : OPLOutputBlock.append_encoded_string [] [c] = spec_scalar_piece c := by
      have h := block_esc_cons c []
      simpa [block_esc, OPLOutputBlock.append_encoded_string] using h
    rw [hpiece, ← ascii_allowed_iff ⟨c.toNat, hc⟩]
    unfold spec_scalar_piece
    cases h : spec_allowed c.toNat with
    | true => simp [utf8_bytes, hc]
    | false =>
      have hne := toDigits_ne_nil 16 c.toNat (by decide)
      simp [fmt_04x, hne]

/-- C21, witness: a text with every structural character of the format. -/
theorem block_escape_no_structural_witness :
    OPLOutputBlock.append_encoded_string [] "a b,c=d@e%\n".data =
        lit "a%0020b%002cc%003dd%0040e%0025%000a" ∧
      OPLOutputBlock.append_encoded_string [] "a b,c=d@e%\n".data =
        [] ++ "a b,c=d@e%\n".data.flatMap spec_scalar_piece :=
  ⟨by decide, (block_escape_no_structural [] "a b,c=d@e%\n".data).1⟩

/-! ### C22: what write_buffer bounds -/

theorem pipeline_run_behind_le (tail : List OPLOutputFormat.Step) :
    ∀ s s2 : OPLOutputFormat.State, (∀ a ∈ tail, a.behind_the_queue = true) →
      OPLOutputFormat.run s tail = some s2 →
      s2.m_output_queue.length ≤ s.m_output_queue.length := by
  induction tail with
  | nil =>
    intro s s2 _ h
    simp only [OPLOutputFormat.run, Option.some.injEq] at h
    subst h
    exact Nat.le_refl _
  | cons a rest ih =>
    intro s s2 hb h
    have ha := hb a (List.mem_cons_self a rest)
    have hrest : ∀ x ∈ rest, x.behind_the_queue = true :=
      fun x hx => hb x (List.mem_cons_of_mem a hx)
    simp only [OPLOutputFormat.run] at h
    cases hs : OPLOutputFormat.step s a with
    | none => simp [hs] at h
    | some s1 =>
      simp only [hs] at h
      have h1 := ih s1 s2 hrest h
      cases a with
      | write_buffer buffer => simp [OPLOutputFormat.Step.behind_the_queue] at ha
      | write_buffer_return => simp [OPLOutputFormat.Step.behind_the_queue] at ha
      | close => simp [OPLOutputFormat.Step.behind_the_queue] at ha
      | worker_done i =>
        obtain ⟨p, _, h2⟩ := pipeline_worker_done_spec s s1 i hs
        subst h2
        simpa using h1
      | drain =>
        obtain ⟨p, tl, hq, h2⟩ := pipeline_drain_spec s s1 hs
        subst h2
        rw [hq]
        simp only [List.length_cons] at h1 ⊢
        omega

/-- C22.  `OPLOutputFormat::write_buffer` appends the new Pending Result to the tail of the queue
first and only then waits while the queue size is greater than 10: whenever it returns the queue
holds at most 10 Pending Results, and with one calling thread the queue never holds more than 11,
also not after a final `close` and the steps of the workers and of the drain that follow it. -/
theorem write_buffer_pushes_then_waits (steps : List OPLOutputFormat.Step)
    (s : OPLOutputFormat.State) (hc : OPLOutputFormat.closes steps = 0)
    (hrun : OPLOutputFormat.run OPLOutputFormat.init steps = some s) :
    (∀ (p : OPLOutputFormat.State) (buffer : List Entity),
        (OPLOutputFormat.write_buffer_push p buffer).m_output_queue =
            p.m_output_queue ++ [OPLOutputFormat.submit buffer] ∧
          (OPLOutputFormat.write_buffer_push p buffer).in_write_buffer = true) ∧
      (∀ p : OPLOutputFormat.State,
        OPLOutputFormat.write_buffer_waits p = decide (p.m_output_queue.length > 10)) ∧
      (∀ p p2 : OPLOutputFormat.State, OPLOutputFormat.write_buffer_return p = some p2 →
        p2.m_output_queue = p.m_output_queue ∧ p2.m_output_queue.length ≤ 10) ∧
      s.m_output_queue.length ≤ 11 ∧
      (∀ (tail : List OPLOutputFormat.Step) (s2 : OPLOutputFormat.State),
        (∀ a ∈ tail, a.behind_the_queue = true) →
        OPLOutputFormat.run s (.close :: tail) = some s2 →
        s2.m_output_queue.length ≤ 11) := by
  have hinv := pipeline_run_bound steps OPLOutputFormat.init s hc hrun
    (by simp [OPLOutputFormat.init])
  refine ⟨fun p buffer => ⟨rfl, rfl⟩, fun p => rfl, ?_, hinv.1, ?_⟩
  · intro p p2 h
    obtain ⟨hle, h2⟩ := pipeline_return_spec p p2 h
    subst h2
    exact ⟨rfl, hle⟩
  · intro tail s2 hb h
    simp only [OPLOutputFormat.run, OPLOutputFormat.step] at h
    cases hf : s.in_write_buffer with
    | true => simp [hf] at h
    | false =>
      simp only [hf, Bool.false_eq_true, if_false] at h
      have h1 := pipeline_run_behind_le tail _ s2 hb h
      have h2 := hinv.2 hf
      simp only [OPLOutputFormat.close, List.length_append, List.length_cons,
        List.length_nil] at h1
      omega

/-- C22, witness: the statement at the state after one returned `write_buffer` call with a block
of the sample Way. -/
theorem write_buffer_pushes_then_waits_witness :
    OPLOutputFormat.run OPLOutputFormat.init
        [.write_buffer [.way sample_way], .write_buffer_return] =
      some { m_output_queue := [OPLOutputFormat.submit [.way sample_way]], sink := [],
             in_write_buffer := false } ∧
      [OPLOutputFormat.submit [.way sample_way]].length ≤ 11 :=
  ⟨by decide,
   (write_buffer_pushes_then_waits [.write_buffer [.way sample_way], .write_buffer_return]
      { m_output_queue := [OPLOutputFormat.submit [.way sample_way]], sink := [],
        in_write_buffer := false } (by decide) (by decide)).2.2.2.1⟩

/-! ### C23: the assertion of output_formatted -/

theorem fmt_04x_length_ge (c : Nat) : 4 ≤ (fmt_04x c).length := by
  simp only [fmt_04x, List.length_map, List.length_append, List.length_replicate]
  omega

theorem block_output_formatted_of_assert (m_out formatted : List Byte)
    (h : OPLOutputBlock.output_formatted_assert formatted) :
    OPLOutputBlock.output_formatted m_out formatted = m_out ++ formatted := by
  apply block_output_formatted_eq
  have := h.2
  simp only [OPLOutputBlock.tmp_buffer_size] at this
  omega

/-- C23.  For every 64-bit id and reference, 32-bit version, changeset, uid and change count,
every location within its 32-bit storage and every code point, each text that `write_meta`,
`way`, `relation`, `changeset`, `write_location` and `append_encoded_string` hand to
`output_formatted` has a length `len` with `0 < len < 100`, so the assertion holds and nothing is
truncated; the `%04x` escape has length between 4 and 6 and the first text of `write_meta` at
most 35. -/
theorem output_formatted_assert_holds (o : OSMObject) (ho : o.in_range) (c : Changeset)
    (hc : (Entity.changeset c).in_range) (ref : Int) (href : int64 ref) (l : Location)
    (hl : l.in_range) (x y cp : Char) (m_out : List Byte) :
    OPLOutputBlock.output_formatted_assert
        (fmt_d o.id ++ lit " v" ++ fmt_d o.version ++ lit " d") ∧
      (fmt_d o.id ++ lit " v" ++ fmt_d o.version ++ lit " d").length ≤ 35 ∧
      OPLOutputBlock.output_formatted_assert (lit " c" ++ fmt_d o.changeset ++ lit " t") ∧
      OPLOutputBlock.output_formatted_assert (lit " i" ++ fmt_d o.uid ++ lit " u") ∧
      OPLOutputBlock.output_formatted_assert (fmt_04x cp.toNat) ∧
      4 ≤ (fmt_04x cp.toNat).length ∧ (fmt_04x cp.toNat).length ≤ 6 ∧
      OPLOutputBlock.output_formatted_assert
        (lit " " ++ [ch x] ++ fmt_7f l.x ++ lit " " ++ [ch y] ++ fmt_7f l.y) ∧
      OPLOutputBlock.output_formatted_assert (lit "n" ++ fmt_d ref) ∧
      OPLOutputBlock.output_formatted_assert (fmt_d ref ++ lit "@") ∧
      OPLOutputBlock.output_formatted_assert
        (lit "c" ++ fmt_d c.id ++ lit " k" ++ fmt_d c.num_changes ++ lit " s") ∧
      OPLOutputBlock.output_formatted_assert (lit " i" ++ fmt_d c.uid ++ lit " u") ∧
      (∀ formatted : List Byte, OPLOutputBlock.output_formatted_assert formatted →
        OPLOutputBlock.output_formatted m_out formatted = m_out ++ formatted) := by
  obtain ⟨h1, h2, h3, h4⟩ := ho
  obtain ⟨c1, c2, c3, _, _⟩ := hc
  have l1 := fmt_d_length_int64 _ h1
  have l2 := fmt_d_length_int32 _ h2
  have l3 := fmt_d_length_int32 _ h3
  have l4 := fmt_d_length_int32 _ h4
  have k1 := fmt_d_length_int32 _ c1
  have k2 := fmt_d_length_int32 _ c2
  have k3 := fmt_d_length_int32 _ c3
  have r1 := fmt_d_length_int64 _ href
  have x1 := fmt_7f_length _ hl.1
  have x2 := fmt_7f_length _ hl.2
  have g1 := fmt_04x_length_ge cp.toNat
  have g2 := fmt_04x_length cp.toNat (char_toNat_lt cp)
  have e0 : (lit " ").length = 1 := by decide
  have e1 : (lit " v").length = 2 := by decide
  have e2 : (lit " d").length = 2 := by decide
  have e3 : (lit " c").length = 2 := by decide
  have e4 : (lit " t").length = 2 := by decide
  have e5 : (lit " i").length = 2 := by decide
  have e6 : (lit " u").length = 2 := by decide
  have e7 : (lit "n").length = 1 := by decide
  have e8 : (lit "@").length = 1 := by decide
  have e9 : (lit "c").length = 1 := by decide
  have e10 : (lit " k").length = 2 := by decide
  have e11 : (lit " s").length = 2 := by decide
  simp only [OPLOutputBlock.output_formatted_assert, OPLOutputBlock.tmp_buffer_size,
    List.length_append, List.length_cons, List.length_nil, e0, e1, e2, e3, e4, e5, e6, e7, e8, e9,
    e10, e11]
  refine ⟨by omega, by omega, by omega, by omega, by omega, g1, g2, by omega, by omega, by omega,
    by omega, by omega, ?_⟩
  intro formatted hf
  exact block_output_formatted_of_assert m_out formatted
    (by simpa [OPLOutputBlock.output_formatted_assert, OPLOutputBlock.tmp_buffer_size] using hf)

/-- C23, witness: the statement at the sample object, the sample Changeset, the largest 64-bit
reference, the location (0,0) and the code point U+10FFFF. -/
theorem output_formatted_assert_holds_witness :
    (fmt_04x (Char.ofNat 0x10FFFF).toNat).length = 6 ∧
      (fmt_d 9223372036854775807).length = 19 ∧
      OPLOutputBlock.output_formatted_assert (lit "n" ++ fmt_d 9223372036854775807) :=
  ⟨by decide, by decide,
   (output_formatted_assert_holds sample_object (by decide) sample_changeset (by decide)
      9223372036854775807 (by decide) { x := 0, y := 0 } (by decide) 'x' 'y'
      (Char.ofNat 0x10FFFF) []).2.2.2.2.2.2.2.2.1⟩

/-! ### C19: the pipeline keeps the submission order -/

end osmium
